import Mathlib

/-!
# cloudmon: query compiler and monitor

A shallow embedding of `libbeat/outputs/cloudmon` (`filtercompiler.go`,
`filterparser.go`, `monitor.go`).

* Go strings are modelled by Lean `String`s (sequences of code points); the
  embedding therefore speaks about valid UTF-8 text.
* A Go `any` is the closed type `GoAny`; a `map[string]any` is an association
  list in which the first binding of a key is the one that counts.
* A compiled predicate is a Lean function; a Go `panic` while compiling is the
  result `none`.
* The parts of the Go standard library that the compiler calls are modelled
  below (`strings.Split`, `strings.ReplaceAll`, `strings.EqualFold`,
  `regexp.QuoteMeta`, `regexp.Compile`, `Regexp.MatchString`).  The Unicode
  case-folding table and `strconv.ParseFloat` are taken as parameters
  (`GoLib`).
* The rules of the lexer are those of `lex`, run by a model of the stateful
  lexer of participle.  The parser that participle builds from the struct tags
  is not modelled: the compiler is studied on syntax trees.
-/

namespace Cloudmon

/-! ## Values -/

/-- A `float64` as far as comparisons see it: not-a-number, the two infinities
and the finite values (every finite `float64` is a rational; the two zeros
compare equal). -/
inductive F64 where
  | nan
  | negInf
  | fin (q : ℚ)
  | posInf
  deriving DecidableEq

/-- The Go comparison `a <= b` on `float64`. -/
def F64.le : F64 → F64 → Bool
  | .nan, _ => false
  | _, .nan => false
  | .negInf, _ => true
  | .fin _, .negInf => false
  | .fin a, .fin b => decide (a ≤ b)
  | .fin _, .posInf => true
  | .posInf, .posInf => true
  | .posInf, _ => false

/-- The Go comparison `a < b` on `float64`. -/
def F64.lt : F64 → F64 → Bool
  | .nan, _ => false
  | _, .nan => false
  | .negInf, .negInf => false
  | .negInf, _ => true
  | .fin a, .fin b => decide (a < b)
  | .fin _, .posInf => true
  | .fin _, .negInf => false
  | .posInf, _ => false

/-- The standard-library tables the compiler depends on.

* `foldKey c` is a canonical representative of the orbit of `c` under
  `unicode.SimpleFold`: two runes are equal under simple case folding exactly
  when their keys are equal.
* `parseFloat s` is `strconv.ParseFloat(s, 64)` when it returns a nil error,
  and `none` otherwise. -/
structure GoLib where
  foldKey : Char → Char
  parseFloat : String → Option F64

/-- A dynamically typed Go value (`any`) as it can occur in an event:
the nil interface, a `string`, a `json.Number` (a string type), a
`map[string]any`, or a value of any other dynamic type. -/
inductive GoAny where
  | nil
  | str (s : String)
  | number (s : String)
  | map (m : List (String × GoAny))
  | other (tag : Nat)

/-- Source `type LogEntry map[string]any`. -/
abbrev LogEntry := List (String × GoAny)

/-- The two-valued map index `v, ok := m[k]`. -/
def mapLookup (k : String) : List (String × GoAny) → Option GoAny
  | [] => none
  | (k', v) :: rest => if k' = k then some v else mapLookup k rest

/-- The one-valued map index `m[k]`: the nil interface when `k` is absent. -/
def mapIndex (m : List (String × GoAny)) (k : String) : GoAny :=
  (mapLookup k m).getD GoAny.nil

/-! ## Standard library: strings -/

/-- The pieces of `strings.Split(s, sep)` for a one-character separator, on
character lists.  The result is never empty. -/
def splitChars (sep : Char) : List Char → List (List Char)
  | [] => [[]]
  | c :: cs =>
    if c = sep then [] :: splitChars sep cs
    else
      match splitChars sep cs with
      | [] => [[c]]
      | h :: t => (c :: h) :: t

/-- Go `strings.Split(s, sep)` for a one-character separator. -/
def stringsSplit (s : String) (sep : Char) : List String :=
  (splitChars sep s.data).map String.mk

/-- Go `strings.Contains(s, sub)` for a one-character `sub`. -/
def stringsContains (s : String) (c : Char) : Bool :=
  s.data.contains c

/-- The loop of `strings.ReplaceAll(s, old, new)` for a non-empty `old`: scan
from the left; at an occurrence of `old` emit `new` and skip the occurrence
(`skip` counts the characters of it still to be passed over), otherwise copy one
character. -/
def replaceAllChars (old new : List Char) : Nat → List Char → List Char
  | _, [] => []
  | skip + 1, _ :: cs => replaceAllChars old new skip cs
  | 0, c :: cs =>
    if old.isPrefixOf (c :: cs) then new ++ replaceAllChars old new (old.length - 1) cs
    else c :: replaceAllChars old new 0 cs

/-- Go `strings.ReplaceAll(s, old, new)` for a non-empty `old`. -/
def stringsReplaceAll (s old new : String) : String :=
  ⟨replaceAllChars old.data new.data 0 s.data⟩

/-- Go `strings.EqualFold(s, t)`: the same number of runes, and rune by rune equal
under simple case folding. -/
def stringsEqualFold (lib : GoLib) (s t : String) : Bool :=
  s.data.map lib.foldKey == t.data.map lib.foldKey

/-! ## Standard library: regexp -/

/-- The characters `regexp.QuoteMeta` escapes: `\.+*?()|[]{}^$`. -/
def regexpSpecial (c : Char) : Bool :=
  "\\.+*?()|[]\x7b\x7d^$".data.contains c

/-- Go `regexp.QuoteMeta` on character lists: a backslash before every special
character. -/
def quoteMetaChars : List Char → List Char
  | [] => []
  | c :: cs => if regexpSpecial c then '\\' :: c :: quoteMetaChars cs else c :: quoteMetaChars cs

/-- Go `regexp.QuoteMeta(s)`. -/
def regexpQuoteMeta (s : String) : String :=
  ⟨quoteMetaChars s.data⟩

/-- One element of a compiled pattern: `^`, `$`, a literal character or `.*`. -/
inductive RegexItem where
  | bol
  | eol
  | lit (c : Char)
  | anyStar
  deriving DecidableEq

/-- A compiled regular expression: the case-insensitivity flag `(?i)` and the
sequence of its elements. -/
structure Regexp where
  foldCase : Bool
  items : List RegexItem

/-- The parser of `regexp.Compile` on the fragment of the syntax that
`newStringExpr` generates: `^`, `$`, `.*`, an escaped special character and
ordinary characters.  Any other use of a metacharacter is outside the fragment
and gives `none`. -/
def regexpParseItems : List Char → Option (List RegexItem)
  | [] => some []
  | [c] =>
    if c = '^' then some [RegexItem.bol]
    else if c = '$' then some [RegexItem.eol]
    else if regexpSpecial c then none
    else some [RegexItem.lit c]
  | c :: d :: r =>
    if c = '\\' then
      if regexpSpecial d then (regexpParseItems r).map (fun l => RegexItem.lit d :: l) else none
    else if c = '.' then
      if d = '*' then (regexpParseItems r).map (fun l => RegexItem.anyStar :: l) else none
    else if c = '^' then (regexpParseItems (d :: r)).map (fun l => RegexItem.bol :: l)
    else if c = '$' then (regexpParseItems (d :: r)).map (fun l => RegexItem.eol :: l)
    else if regexpSpecial c then none
    else (regexpParseItems (d :: r)).map (fun l => RegexItem.lit c :: l)

/-- Go `regexp.Compile(pattern)` on the fragment above, with an optional leading
`(?i)`; `none` is a compile error. -/
def regexpCompile (pattern : String) : Option Regexp :=
  if "(?i)".data.isPrefixOf pattern.data then
    (regexpParseItems (pattern.data.drop 4)).map (fun l => Regexp.mk true l)
  else
    (regexpParseItems pattern.data).map (fun l => Regexp.mk false l)

/-- Whether the pattern character `c` matches the text character `d`: equal, or
with `(?i)` equal under simple case folding. -/
def charMatches (lib : GoLib) (foldCase : Bool) (c d : Char) : Bool :=
  if foldCase then lib.foldKey c == lib.foldKey d else c == d

/-- The element `.*` followed by the continuation `k`: try `k` here, or consume one
character other than a line feed (`.` does not match `\n`) and repeat.  The
flag says whether the position is the beginning of the text. -/
def starLoop (k : Bool → List Char → Bool) : Bool → List Char → Bool
  | b, [] => k b []
  | b, c :: cs => k b (c :: cs) || (c != '\n' && starLoop k false cs)

/-- Whether the elements match a prefix of the text from the current position;
the flag says whether the position is the beginning of the text (`^` matches
only there, `$` only at the end of the text). -/
def matchItems (lib : GoLib) (foldCase : Bool) : List RegexItem → Bool → List Char → Bool
  | [], _, _ => true
  | RegexItem.bol :: r, b, t => b && matchItems lib foldCase r b t
  | RegexItem.eol :: r, b, t => t.isEmpty && matchItems lib foldCase r b t
  | RegexItem.lit _ :: _, _, [] => false
  | RegexItem.lit c :: r, _, d :: t => charMatches lib foldCase c d && matchItems lib foldCase r false t
  | RegexItem.anyStar :: r, b, t => starLoop (matchItems lib foldCase r) b t

/-- An unanchored search: the predicate holds at the current position or at a
later one. -/
def searchFrom (p : Bool → List Char → Bool) : Bool → List Char → Bool
  | b, [] => p b []
  | b, c :: cs => p b (c :: cs) || searchFrom p false cs

/-- Go `re.MatchString(s)`: the text contains a match of the expression. -/
def Regexp.MatchString (lib : GoLib) (re : Regexp) (s : String) : Bool :=
  searchFrom (matchItems lib re.foldCase re.items) true s.data

/-! ## The syntax tree (`filterparser.go`)

A pointer that the grammar always fills (`@@`) is a plain field; the
alternatives of `Term`, `Expr` and `Value`, which the parser leaves nil when
another alternative was taken, are optional.  The slice `StringLit` is nil
exactly when it is empty. -/

/-- One fragment of a quoted literal: an escaped character (the backslash and
the character) or a run of raw characters. -/
structure StringFragment where
  Escaped : String
  Chars : String

/-- Source `type StringFragments []*StringFragment`. -/
abbrev StringFragments := List StringFragment

/-- The method `String` of `StringFragments`: for each fragment the escaped
text without its first character (`f.Escaped[1:]`, the first character being
the backslash) when there is one, then the raw characters. -/
def StringFragments.String (s : StringFragments) : String :=
  ⟨s.foldr (fun f acc =>
    (if f.Escaped ≠ "" then f.Escaped.data.drop 1 else []) ++ f.Chars.data ++ acc) []⟩

structure OpenRange where
  Operator : String
  Bound : F64

structure ClosedRange where
  Min : F64
  Max : F64

structure Value where
  StringLit : StringFragments
  String : Option String
  OpenRange : Option OpenRange
  ClosedRange : Option ClosedRange

mutual
inductive Expr where
  | mk (Value : Option Value) (SubExpr : Option SubExpr)
inductive SubExpr where
  | mk (First : Expr) (Rest : List ComplexExpr)
inductive ComplexExpr where
  | mk (Operator : String) (Expr : Expr)
end

structure Condition where
  Exclusion : Bool
  FieldPrefix : Option String
  FieldName : String
  Value : Expr

structure FreeCondition where
  Exclusion : Bool
  Value : Expr

mutual
inductive Query where
  | mk (First : Term) (Rest : List ComplexQuery)
inductive Term where
  | mk (SubQuery : Option SubQuery) (Condition : Option Condition)
      (FreeCondition : Option FreeCondition)
inductive SubQuery where
  | mk (Exclusion : Bool) (Query : Query)
inductive ComplexQuery where
  | mk (Operator : String) (Term : Term)
end

/-! ## The compiler (`filtercompiler.go`) -/

/-- Source `type queryFunc func(e LogEntry) bool`. -/
abbrev queryFunc := LogEntry → Bool

/-- Source `type exprFunc func(v any) bool`. -/
abbrev exprFunc := GoAny → Bool

/-- The body of the closure of `newFieldLoader` after `parts` was computed:
the loop over all parts but the last, which indexes the event `e` with
`parts[i]` and stores the mapping found in `m`, and then the final index of `m`
with the last part.  (`strings.Split` never returns an empty slice.) -/
def fieldLoaderLoop (e : LogEntry) : List String → List (String × GoAny) → GoAny
  | [], _ => GoAny.nil
  | [last], m => mapIndex m last
  | p :: q :: ps, _ =>
    match mapLookup p e with
    | none => GoAny.nil
    | some (GoAny.map mi) => fieldLoaderLoop e (q :: ps) mi
    | some _ => GoAny.nil

/-- Source `newFieldLoader(prefix, name)`. -/
def newFieldLoader (_fieldPrefix name : String) : LogEntry → GoAny :=
  let parts := stringsSplit name '.'
  fun e => fieldLoaderLoop e parts e

/-- Source `numberToFloat64(v)`: `none` stands for `ok == false`. -/
def numberToFloat64 (lib : GoLib) (v : GoAny) : Option F64 :=
  match v with
  | GoAny.number lhsi => lib.parseFloat lhsi
  | _ => none

/-- Source `newStringExpr(rhs, free)`. -/
def newStringExpr (lib : GoLib) (rhs : String) (free : Bool) : Option exprFunc :=
  if free || stringsContains rhs '*' then
    let quoted := stringsReplaceAll (regexpQuoteMeta rhs) "\\*" ".*"
    let pattern := if free then "(?i).*" ++ quoted ++ ".*" else "^" ++ quoted ++ "$"
    match regexpCompile pattern with
    | none => none
    | some re =>
      some (fun v =>
        match v with
        | GoAny.str lhs => re.MatchString lib lhs
        | GoAny.number lhs => re.MatchString lib lhs
        | _ => false)
  else
    some (fun v =>
      match v with
      | GoAny.str lhs => lhs == rhs
      | GoAny.number lhs => lhs == rhs
      | _ => false)

/-- Source `newStringLitExpr(rhs, free)`. -/
def newStringLitExpr (lib : GoLib) (rhs : String) (free : Bool) : Option exprFunc :=
  if free then
    newStringExpr lib (stringsReplaceAll rhs "*" " ") true
  else
    some (fun v =>
      match v with
      | GoAny.str lhs => stringsEqualFold lib lhs rhs
      | _ => false)

inductive openRangeOp where
  | openRangeGTE
  | openRangeLTE
  | openRangeGE
  | openRangeLE
  deriving DecidableEq

/-- Source `newOpenRangeExpr(ast)`; an operator that is none of the four leaves `op`
at its zero value `openRangeGTE`. -/
def newOpenRangeExpr (lib : GoLib) (ast : OpenRange) : exprFunc :=
  let op :=
    if ast.Operator = ">=" then openRangeOp.openRangeGTE
    else if ast.Operator = "<=" then openRangeOp.openRangeLTE
    else if ast.Operator = ">" then openRangeOp.openRangeGE
    else if ast.Operator = "<" then openRangeOp.openRangeLE
    else openRangeOp.openRangeGTE
  let rhs := ast.Bound
  fun v =>
    match numberToFloat64 lib v with
    | none => false
    | some lhs =>
      match op with
      | openRangeOp.openRangeGTE => F64.le rhs lhs
      | openRangeOp.openRangeLTE => F64.le lhs rhs
      | openRangeOp.openRangeGE => F64.lt rhs lhs
      | openRangeOp.openRangeLE => F64.lt lhs rhs

/-- Source `newClosedRangeExpr(ast)`. -/
def newClosedRangeExpr (lib : GoLib) (ast : ClosedRange) : exprFunc :=
  let min := ast.Min
  let max := ast.Max
  fun v =>
    match numberToFloat64 lib v with
    | none => false
    | some lhs => F64.le min lhs && F64.le lhs max

/-- Source `newValueExpr(ast, free)`; `none` is `panic("invalid expr")`. -/
def newValueExpr (lib : GoLib) (ast : Value) (free : Bool) : Option exprFunc :=
  if !ast.StringLit.isEmpty then newStringLitExpr lib ast.StringLit.String free
  else
    match ast.String, ast.OpenRange, ast.ClosedRange with
    | some s, _, _ => newStringExpr lib s free
    | none, some r, _ => some (newOpenRangeExpr lib r)
    | none, none, some r => some (newClosedRangeExpr lib r)
    | none, none, none => none

mutual
/-- Source `newExpr(ast, free)`; `none` is `panic("invalid expr")`. -/
def newExpr (lib : GoLib) (free : Bool) : Expr → Option exprFunc
  | Expr.mk (some v) _ => newValueExpr lib v free
  | Expr.mk none (some s) => newSubExpr lib free s
  | Expr.mk none none => none
/-- Source `newSubExpr(ast, free)`. -/
def newSubExpr (lib : GoLib) (free : Bool) : SubExpr → Option exprFunc
  | SubExpr.mk first rest =>
    match newExpr lib free first with
    | none => none
    | some e => subExprLoop lib free rest e
/-- The loop of `newSubExpr`, `for i := len(ast.Rest) - 1; i >= 0; i--`, on the
elements `Rest[0..]` still to be visited: the later elements are folded in
first, `Rest[0]` last. -/
def subExprLoop (lib : GoLib) (free : Bool) : List ComplexExpr → exprFunc → Option exprFunc
  | [], e => some e
  | c :: cs, e =>
    match subExprLoop lib free cs e with
    | none => none
    | some e' => newComplexExpr lib free c e'
/-- Source `newComplexExpr(ast, free, lhs)`; `none` is a panic. -/
def newComplexExpr (lib : GoLib) (free : Bool) : ComplexExpr → exprFunc → Option exprFunc
  | ComplexExpr.mk op x, lhs =>
    match newExpr lib free x with
    | none => none
    | some rhs =>
      if op = "AND" then some (fun v => lhs v && rhs v)
      else if op = "OR" then some (fun v => lhs v || rhs v)
      else none
end

/-- Source `newCondition(ast)`. -/
def newCondition (lib : GoLib) (ast : Condition) : Option queryFunc :=
  let fieldPrefix := ast.FieldPrefix.getD ""
  let lhs := newFieldLoader fieldPrefix ast.FieldName
  match newExpr lib false ast.Value with
  | none => none
  | some rhs =>
    if ast.Exclusion then some (fun e => !rhs (lhs e))
    else some (fun e => rhs (lhs e))

/-- Source `newFreeCondition(ast)`. -/
def newFreeCondition (lib : GoLib) (ast : FreeCondition) : Option queryFunc :=
  let lhs := newFieldLoader "" "message"
  match newExpr lib true ast.Value with
  | none => none
  | some rhs =>
    if ast.Exclusion then some (fun e => !rhs (lhs e))
    else some (fun e => rhs (lhs e))

mutual
/-- Source `newQuery(ast)`. -/
def newQuery (lib : GoLib) : Query → Option queryFunc
  | Query.mk first rest =>
    match newTerm lib first with
    | none => none
    | some q => queryLoop lib rest q
/-- The loop of `newQuery`, `for i := len(ast.Rest) - 1; i >= 0; i--`, on the
elements `Rest[0..]` still to be visited: the later elements are folded in
first, `Rest[0]` last. -/
def queryLoop (lib : GoLib) : List ComplexQuery → queryFunc → Option queryFunc
  | [], q => some q
  | c :: cs, q =>
    match queryLoop lib cs q with
    | none => none
    | some q' => newComplexQuery lib c q'
/-- Source `newSubQuery(ast)`. -/
def newSubQuery (lib : GoLib) : SubQuery → Option queryFunc
  | SubQuery.mk exclusion query =>
    match newQuery lib query with
    | none => none
    | some q => if exclusion then some (fun e => !q e) else some q
/-- Source `newTerm(ast)`; `none` is `panic("invalid term")`. -/
def newTerm (lib : GoLib) : Term → Option queryFunc
  | Term.mk _ (some c) _ => newCondition lib c
  | Term.mk _ none (some f) => newFreeCondition lib f
  | Term.mk (some s) none none => newSubQuery lib s
  | Term.mk none none none => none
/-- Source `newComplexQuery(ast, lhs)`: `OR` when the operator is `OR`, `AND` for any
other operator text, the omitted operator included. -/
def newComplexQuery (lib : GoLib) : ComplexQuery → queryFunc → Option queryFunc
  | ComplexQuery.mk op t, lhs =>
    match newTerm lib t with
    | none => none
    | some rhs =>
      if op = "OR" then some (fun e => lhs e || rhs e)
      else some (fun e => lhs e && rhs e)
end

/-! ## The monitor (`monitor.go`) -/

/-- The value of an `int64` after an arithmetic result `x` (two's complement
wrap-around). -/
def wrapInt64 (x : Int) : Int :=
  (x + 2 ^ 63) % 2 ^ 64 - 2 ^ 63

/-- Source `type monitor struct`: the compiled filter and the counter. -/
structure monitor where
  filter : queryFunc
  counter : Int

/-- Source `newMonitor` after the query text was parsed: the monitor for the syntax
tree `ast`, with the counter at its zero value.  `none` is a panic of the
compiler. -/
def newMonitor (lib : GoLib) (ast : Query) : Option monitor :=
  (newQuery lib ast).map (fun f => monitor.mk f 0)

/-- The method `Update` on the fields of the event: `counter.Inc()` when the
filter holds. -/
def monitor.Update (m : monitor) (e : LogEntry) : monitor :=
  if m.filter e then monitor.mk m.filter (wrapInt64 (m.counter + 1)) else m

/-! ## Closed forms used in the proofs -/

/-- The elements a quoted pattern is parsed into: `.*` for `*`, the character
itself otherwise. -/
def starItems (s : List Char) : List RegexItem :=
  s.map (fun c => if c = '*' then RegexItem.anyStar else RegexItem.lit c)

/-- The quoted and star-replaced text of `s`. -/
def quotedPattern (s : List Char) : List Char :=
  replaceAllChars ['\\', '*'] ['.', '*'] 0 (quoteMetaChars s)

/-- The elements of the pattern `newStringExpr` compiles for `rhs`. -/
def patternItems (rhs : String) (free : Bool) : List RegexItem :=
  if free then RegexItem.anyStar :: (starItems rhs.data ++ [RegexItem.anyStar])
  else RegexItem.bol :: (starItems rhs.data ++ [RegexItem.eol])

/-- The text of a string or number value, `none` for any other value. -/
def textOf : GoAny → Option String
  | GoAny.str s => some s
  | GoAny.number s => some s
  | _ => none

/-- The value at the nested path `p1.p2.....pn` of an event: each key is looked
up in the mapping reached so far; a missing key or a value on the way that is
not a mapping gives the nil interface. -/
def resolvePath : List String → List (String × GoAny) → GoAny
  | [], _ => GoAny.nil
  | [last], m => mapIndex m last
  | p :: q :: ps, m =>
    match mapLookup p m with
    | some (GoAny.map mi) => resolvePath (q :: ps) mi
    | _ => GoAny.nil

/-! ## Concrete inputs -/

/-- The value of a run of decimal digits, `none` when another character occurs. -/
def decimalDigits : List Char → Nat → Option Nat
  | [], acc => some acc
  | c :: cs, acc => if c.isDigit then decimalDigits cs (10 * acc + (c.toNat - 48)) else none

/-- The tables restricted to ASCII letters and to plain decimal integers, for
evaluating the compiler on concrete ASCII inputs. -/
def asciiLib : GoLib where
  foldKey := Char.toLower
  parseFloat := fun s =>
    match s.data with
    | [] => none
    | '-' :: d :: ds => (decimalDigits (d :: ds) 0).map (fun n => F64.fin (-(n : ℚ)))
    | ds => (decimalDigits ds 0).map (fun n => F64.fin (n : ℚ))

/-- The `Expr` of a bare identifier. -/
def identExpr (s : String) : Expr :=
  Expr.mk (some ⟨[], some s, none, none⟩) none

/-- The `Expr` of a quoted literal lexed as one run of raw characters. -/
def quotedExpr (s : String) : Expr :=
  Expr.mk (some ⟨[⟨"", s⟩], none, none, none⟩) none

/-- The `Term` of a field condition without a field prefix. -/
def fieldTerm (exclusion : Bool) (name : String) (v : Expr) : Term :=
  Term.mk none (some ⟨exclusion, none, name, v⟩) none

/-- The `Term` of a free-text condition. -/
def freeTerm (exclusion : Bool) (v : Expr) : Term :=
  Term.mk none none (some ⟨exclusion, v⟩)

/-- The tree of `service:(linode-livekit-cloud-media-production-v1 OR
livekit-cloud-media-production-v1 OR cloud-media) env:production
'no stream matches subject'` (`console_test.go`). -/
def scenarioQuery : Query :=
  Query.mk
    (fieldTerm false "service"
      (Expr.mk none (some (SubExpr.mk (identExpr "linode-livekit-cloud-media-production-v1")
        [ComplexExpr.mk "OR" (identExpr "livekit-cloud-media-production-v1"),
         ComplexExpr.mk "OR" (identExpr "cloud-media")]))))
    [ComplexQuery.mk "" (fieldTerm false "env" (identExpr "production")),
     ComplexQuery.mk "" (freeTerm false (quotedExpr "no stream matches subject"))]

/-- The event of `TestCloudMonOutput`. -/
def scenarioEvent : LogEntry :=
  [("service", GoAny.str "linode-livekit-cloud-media-production-v1"),
   ("env", GoAny.str "production"),
   ("message", GoAny.str "no stream matches subject")]

/-- The event of `TestCloudMonOutput` without `env`. -/
def scenarioEventNoEnv : LogEntry :=
  [("service", GoAny.str "linode-livekit-cloud-media-production-v1"),
   ("message", GoAny.str "no stream matches subject")]

/-- The tree of `a AND b OR c`, three free-text conditions. -/
def andOrQuery : Query :=
  Query.mk (freeTerm false (identExpr "a"))
    [ComplexQuery.mk "AND" (freeTerm false (identExpr "b")),
     ComplexQuery.mk "OR" (freeTerm false (identExpr "c"))]

/-- An event with the text `v` at the nested path `a.b.c`. -/
def nestedEvent : LogEntry :=
  [("a", GoAny.map [("b", GoAny.map [("c", GoAny.str "v")])])]

/-- An event in which `a` is an empty mapping and the top-level key `b` holds a
mapping with the key `c`: the path `a.b.c` is absent. -/
def strayEvent : LogEntry :=
  [("a", GoAny.map []), ("b", GoAny.map [("c", GoAny.str "v")])]

/-- The tree of `service:(a OR b) env:production -message:"no stream matches
subject"` read as three field conditions, the third negated. -/
def exampleQuery : Query :=
  Query.mk
    (fieldTerm false "service"
      (Expr.mk none (some (SubExpr.mk (identExpr "a") [ComplexExpr.mk "OR" (identExpr "b")]))))
    [ComplexQuery.mk "" (fieldTerm false "env" (identExpr "production")),
     ComplexQuery.mk "" (fieldTerm true "message" (quotedExpr "no stream matches subject"))]

/-- The example query with its third condition read as a condition, not
negated, on a field named `-message`. -/
def exampleQueryDashName : Query :=
  Query.mk
    (fieldTerm false "service"
      (Expr.mk none (some (SubExpr.mk (identExpr "a") [ComplexExpr.mk "OR" (identExpr "b")]))))
    [ComplexQuery.mk "" (fieldTerm false "env" (identExpr "production")),
     ComplexQuery.mk "" (fieldTerm false "-message" (quotedExpr "no stream matches subject"))]

/-- An event whose message contains `no stream matches subject` as a proper
substring. -/
def exampleEvent : LogEntry :=
  [("service", GoAny.str "a"),
   ("env", GoAny.str "production"),
   ("message", GoAny.str "x no stream matches subject y")]

/-- An event whose message does not contain `no stream matches subject`. -/
def exampleEventOther : LogEntry :=
  [("service", GoAny.str "a"),
   ("env", GoAny.str "production"),
   ("message", GoAny.str "hello")]


/-! ## Further notions used in the statements -/

/-- The text `s` with every `*` replaced by a single space. -/
def starsToSpaces (s : String) : String :=
  ⟨s.data.map (fun c => if c = '*' then ' ' else c)⟩

/-- The field `Operator` of a `ComplexQuery`. -/
def ComplexQuery.operator : ComplexQuery → String
  | ComplexQuery.mk op _ => op

/-- The field `Term` of a `ComplexQuery`. -/
def ComplexQuery.term : ComplexQuery → Term
  | ComplexQuery.mk _ t => t

/-- The field `Operator` of a `ComplexExpr`. -/
def ComplexExpr.operator : ComplexExpr → String
  | ComplexExpr.mk op _ => op

/-- The field `Expr` of a `ComplexExpr`. -/
def ComplexExpr.expr : ComplexExpr → Expr
  | ComplexExpr.mk _ x => x

/-- The monitor after `Update` was called with each event of the sequence in
turn. -/
def updateAll (m : monitor) (events : List LogEntry) : monitor :=
  events.foldl monitor.Update m

/-! ## The lexer (`filterparser.go`)

The rules are those of `lex`; the engine is the stateful lexer of participle:
in the state on top of the stack the rules are tried in their listed order on
the rest of the input, the first rule whose pattern matches at the current
position produces the token, and its action pushes or pops a state. -/

/-- The token types: the names of the rules of `lex`. -/
inductive TokenType where
  | BooleanOperator
  | RangeOperator
  | FieldPrefix
  | SingleQuote
  | DoubleQuote
  | Ident
  | Punct
  | EOL
  | Whitespace
  | EscapedChar
  | SingleQuoteStringChar
  | DoubleQuoteStringChar
  deriving DecidableEq

/-- A token: its type and the text it matched. -/
structure Token where
  kind : TokenType
  value : String
  deriving DecidableEq

/-- The states of `lex`. -/
inductive LexState where
  | Root
  | SingleQuoteString
  | DoubleQuoteString
  deriving DecidableEq

/-- The action of a rule: `lexer.Push(state)` or `lexer.Pop()`. -/
inductive LexAction where
  | push (s : LexState)
  | pop

/-- The shapes of the patterns of `lex`: an alternation of literal texts (the
first alternative that matches wins), a run `[...]+` of one or more characters
of a class, one character of a class, a backslash followed by any character
but a line feed (`\\.`), and an alternation of two patterns. -/
inductive Pattern where
  | lits (alts : List String)
  | run (cls : Char → Bool)
  | one (cls : Char → Bool)
  | escaped
  | orElse (p q : Pattern)

/-- The length of the match of a pattern at the start of the input, `none`
when it does not match there.  A run is greedy. -/
def Pattern.matchLen : Pattern → List Char → Option Nat
  | Pattern.lits alts, input =>
    (alts.find? (fun a => a.data.isPrefixOf input)).map (fun a => a.data.length)
  | Pattern.run cls, input =>
    if (input.takeWhile cls).isEmpty then none else some (input.takeWhile cls).length
  | Pattern.one cls, input =>
    match input with
    | c :: _ => if cls c then some 1 else none
    | [] => none
  | Pattern.escaped, input =>
    match input with
    | c :: d :: _ => if c = '\\' ∧ d ≠ '\n' then some 2 else none
    | _ => none
  | Pattern.orElse p q, input =>
    match p.matchLen input with
    | some n => some n
    | none => q.matchLen input

/-- One rule of `lex`. -/
structure Rule where
  Name : TokenType
  Pattern : Pattern
  Action : Option LexAction

/-- The class of `Ident`: `[a-zA-Z0-9@#$%^&*+_\-='|;'<,>.?\x60~\\/]`. -/
def identChar (c : Char) : Bool :=
  c.isAlphanum || "@#$%^&*+_-=\x27|;<,>.?\x60~\\/".data.contains c

/-- The characters of `Punct`: the class `[-[!@#$%^&*()+_={}\|:;"'<,>.?\/]` and
the alternative `]`. -/
def punctChar (c : Char) : Bool :=
  "-[!@#$%^&*()+_=\x7b\x7d|:;\x22\x27<,>.?/".data.contains c

/-- The rules of `lex`, state by state, in their listed order. -/
def lexRules : LexState → List Rule
  | LexState.Root =>
    [⟨TokenType.BooleanOperator, Pattern.lits ["AND", "OR"], none⟩,
     ⟨TokenType.RangeOperator, Pattern.lits ["<=", ">=", "<", ">"], none⟩,
     ⟨TokenType.FieldPrefix, Pattern.lits ["@", "#"], none⟩,
     ⟨TokenType.SingleQuote, Pattern.lits ["\x27"],
       some (LexAction.push LexState.SingleQuoteString)⟩,
     ⟨TokenType.DoubleQuote, Pattern.lits ["\x22"],
       some (LexAction.push LexState.DoubleQuoteString)⟩,
     ⟨TokenType.Ident, Pattern.run identChar, none⟩,
     ⟨TokenType.Punct, Pattern.orElse (Pattern.one punctChar) (Pattern.lits ["]"]), none⟩,
     ⟨TokenType.EOL, Pattern.run (fun c => c = '\n' ∨ c = '\r'), none⟩,
     ⟨TokenType.Whitespace, Pattern.run (fun c => c = ' ' ∨ c = '\t'), none⟩]
  | LexState.SingleQuoteString =>
    [⟨TokenType.EscapedChar, Pattern.escaped, none⟩,
     ⟨TokenType.SingleQuote, Pattern.lits ["\x27"], some LexAction.pop⟩,
     ⟨TokenType.SingleQuoteStringChar,
       Pattern.orElse (Pattern.lits ["$"])
         (Pattern.run (fun c => c ≠ '$' ∧ c ≠ '\x27' ∧ c ≠ '\\')), none⟩]
  | LexState.DoubleQuoteString =>
    [⟨TokenType.EscapedChar, Pattern.escaped, none⟩,
     ⟨TokenType.DoubleQuote, Pattern.lits ["\x22"], some LexAction.pop⟩,
     ⟨TokenType.DoubleQuoteStringChar,
       Pattern.orElse (Pattern.lits ["$"])
         (Pattern.run (fun c => c ≠ '$' ∧ c ≠ '\x22' ∧ c ≠ '\\')), none⟩]

/-- The first rule, in the listed order, whose pattern matches at the start of
the input, with the length of its match. -/
def firstMatch : List Rule → List Char → Option (Rule × Nat)
  | [], _ => none
  | r :: rs, input =>
    match r.Pattern.matchLen input with
    | some n => some (r, n)
    | none => firstMatch rs input

/-- The stack of states after the action of a rule. -/
def applyAction : Option LexAction → List LexState → List LexState
  | none, stack => stack
  | some (LexAction.push s), stack => s :: stack
  | some LexAction.pop, stack => stack.tail

/-- One call of the lexer on a non-empty input: the token of the first matching
rule of the state on top of the stack, the stack after the action of the rule
and the rest of the input; `none` when no rule matches (a lexical error). -/
def nextToken (stack : List LexState) (input : List Char) :
    Option (Token × List LexState × List Char) :=
  match firstMatch (lexRules (stack.headD LexState.Root)) input with
  | none => none
  | some (r, n) => some (⟨r.Name, ⟨input.take n⟩⟩, applyAction r.Action stack, input.drop n)

/-- The tokens of an input, by calling the lexer until the input is used up;
every call consumes at least one character, so a number of calls equal to the
length of the input is enough. -/
def lexLoop : Nat → List LexState → List Char → Option (List Token)
  | _, _, [] => some []
  | 0, _, _ :: _ => none
  | fuel + 1, stack, c :: cs =>
    match nextToken stack (c :: cs) with
    | none => none
    | some (tok, stack', rest) => (lexLoop fuel stack' rest).map (fun toks => tok :: toks)

/-- All tokens of a query text, from the state `Root`. -/
def lexTokens (query : String) : Option (List Token) :=
  lexLoop query.data.length [LexState.Root] query.data

/-- The tokens delivered to the parser built by `NewQueryParser`: the
`Whitespace` tokens are elided and the text of a `BooleanOperator` token is put
in upper case (`participle.Upper`; on ASCII letters). -/
def parserTokens (query : String) : Option (List Token) :=
  (lexTokens query).map (fun toks =>
    (toks.filter (fun t => t.kind ≠ TokenType.Whitespace)).map (fun t =>
      if t.kind = TokenType.BooleanOperator then ⟨t.kind, ⟨t.value.data.map Char.toUpper⟩⟩
      else t))

/-! ## Trees the compiler accepts -/

/-- Whether the switch of `newValueExpr` finds an alternative of the value that
is not nil. -/
def Value.populated (v : Value) : Bool :=
  !v.StringLit.isEmpty || v.String.isSome || v.OpenRange.isSome || v.ClosedRange.isSome

mutual
/-- Whether an alternative of the expression is populated, the first such
alternative is well formed in turn, and every operator of a sub-expression is
`AND` or `OR`. -/
def Expr.wellFormed : Expr → Bool
  | Expr.mk (some v) _ => v.populated
  | Expr.mk none (some s) => s.wellFormed
  | Expr.mk none none => false
/-- Well-formedness of a sub-expression: of its first expression and of the
rest. -/
def SubExpr.wellFormed : SubExpr → Bool
  | SubExpr.mk first rest => first.wellFormed && ComplexExpr.allWellFormed rest
/-- Well-formedness of every element of the rest of a sub-expression. -/
def ComplexExpr.allWellFormed : List ComplexExpr → Bool
  | [] => true
  | c :: cs => c.wellFormed && ComplexExpr.allWellFormed cs
/-- Well-formedness of an operator and its expression. -/
def ComplexExpr.wellFormed : ComplexExpr → Bool
  | ComplexExpr.mk op x => (op = "AND" || op = "OR") && x.wellFormed
end

mutual
/-- Whether every term of the query is well formed. -/
def Query.wellFormed : Query → Bool
  | Query.mk first rest => first.wellFormed && ComplexQuery.allWellFormed rest
/-- Whether an alternative of the term is populated and the alternative the
compiler takes is well formed. -/
def Term.wellFormed : Term → Bool
  | Term.mk _ (some c) _ => c.Value.wellFormed
  | Term.mk _ none (some f) => f.Value.wellFormed
  | Term.mk (some s) none none => s.wellFormed
  | Term.mk none none none => false
/-- Well-formedness of the query of a sub-query. -/
def SubQuery.wellFormed : SubQuery → Bool
  | SubQuery.mk _ q => q.wellFormed
/-- Well-formedness of every element of the rest of a query. -/
def ComplexQuery.allWellFormed : List ComplexQuery → Bool
  | [] => true
  | c :: cs => c.wellFormed && ComplexQuery.allWellFormed cs
/-- Well-formedness of the term of an element of the rest; the operator may be
any text. -/
def ComplexQuery.wellFormed : ComplexQuery → Bool
  | ComplexQuery.mk _ t => t.wellFormed
end

/-- The tree of the query `''`: a free-text condition whose value is a quoted
literal without fragments, so that the slice `StringLit` is nil. -/
def emptyLiteralQuery : Query :=
  Query.mk (freeTerm false (Expr.mk (some ⟨[], none, none, none⟩) none)) []

/-- The tree of the query `env:""`. -/
def emptyLiteralFieldQuery : Query :=
  Query.mk (fieldTerm false "env" (Expr.mk (some ⟨[], none, none, none⟩) none)) []

/-- Whether a pattern can only match a non-empty text. -/
def Pattern.positive : Pattern → Bool
  | Pattern.lits alts => alts.all (fun a => !a.data.isEmpty)
  | Pattern.run _ => true
  | Pattern.one _ => true
  | Pattern.escaped => true
  | Pattern.orElse p q => p.positive && q.positive

/-! ## Theorems -/

theorem regexpSpecial_backslash : regexpSpecial '\\' = true := by decide
theorem regexpSpecial_star : regexpSpecial '*' = true := by decide

theorem not_special_ne {c d : Char} (hc : regexpSpecial c = false) (hd : regexpSpecial d = true) :
    c ≠ d := by
  rintro rfl
  simp [hc] at hd

theorem parse_ordinary (c : Char) (r : List Char) (hc : regexpSpecial c = false) :
    regexpParseItems (c :: r) = (regexpParseItems r).map (fun l => RegexItem.lit c :: l) := by
  have h1 : c ≠ '\\' := not_special_ne hc (by decide)
  have h2 : c ≠ '.' := not_special_ne hc (by decide)
  have h3 : c ≠ '^' := not_special_ne hc (by decide)
  have h4 : c ≠ '$' := not_special_ne hc (by decide)
  cases r with
  | nil => simp [regexpParseItems, h3, h4, hc]
  | cons d r => simp [regexpParseItems, h1, h2, h3, h4, hc]

theorem parse_escaped (d : Char) (r : List Char) (hd : regexpSpecial d = true) :
    regexpParseItems ('\\' :: d :: r) = (regexpParseItems r).map (fun l => RegexItem.lit d :: l) := by
  simp [regexpParseItems, hd]

theorem parse_dot_star (r : List Char) :
    regexpParseItems ('.' :: '*' :: r) = (regexpParseItems r).map (fun l => RegexItem.anyStar :: l) := by
  simp [regexpParseItems]

theorem parse_bol (r : List Char) :
    regexpParseItems ('^' :: r) = (regexpParseItems r).map (fun l => RegexItem.bol :: l) := by
  cases r with
  | nil => simp [regexpParseItems]
  | cons d r => simp [regexpParseItems]

theorem parse_eol_end : regexpParseItems ['$'] = some [RegexItem.eol] := by
  simp [regexpParseItems]

/-- The quoted text never begins with a bare `*`. -/
theorem quoteMeta_head_ne_star (s r : List Char) :
    ['*'].isPrefixOf (quoteMetaChars s ++ r) = true → ['*'].isPrefixOf r = true := by
  cases s with
  | nil => simp [quoteMetaChars]
  | cons c cs =>
    by_cases hc : regexpSpecial c = true
    · simp [quoteMetaChars, hc, List.isPrefixOf]
    · simp only [Bool.not_eq_true] at hc
      have : c ≠ '*' := not_special_ne hc (by decide)
      simp [quoteMetaChars, hc, List.isPrefixOf, this.symm]


theorem quotedPattern_nil : quotedPattern [] = [] := by
  simp [quotedPattern, quoteMetaChars, replaceAllChars]

theorem quotedPattern_ordinary (c : Char) (cs : List Char) (hc : regexpSpecial c = false) :
    quotedPattern (c :: cs) = c :: quotedPattern cs := by
  have h1 : c ≠ '\\' := not_special_ne hc (by decide)
  simp [quotedPattern, quoteMetaChars, hc, replaceAllChars, List.isPrefixOf, h1.symm]

theorem quotedPattern_star (cs : List Char) :
    quotedPattern ('*' :: cs) = '.' :: '*' :: quotedPattern cs := by
  simp [quotedPattern, quoteMetaChars, regexpSpecial_star, replaceAllChars, List.isPrefixOf]

theorem quotedPattern_special (c : Char) (cs : List Char) (hc : regexpSpecial c = true)
    (hs : c ≠ '*') : quotedPattern (c :: cs) = '\\' :: c :: quotedPattern cs := by
  have hhead : ['*'].isPrefixOf (quoteMetaChars cs) = false := by
    cases h : ['*'].isPrefixOf (quoteMetaChars cs) with
    | false => rfl
    | true =>
      have := quoteMeta_head_ne_star cs [] (by simpa using h)
      simp [List.isPrefixOf] at this
  have hp : ['\\', '*'].isPrefixOf (c :: quoteMetaChars cs) = false := by
    by_cases hb : c = '\\'
    · subst hb
      simpa [List.isPrefixOf] using hhead
    · simp [List.isPrefixOf, Ne.symm hb]
  simp only [quotedPattern, quoteMetaChars, hc, if_true]
  rw [replaceAllChars]
  have hq : ['\\', '*'].isPrefixOf ('\\' :: c :: quoteMetaChars cs) = false := by
    simp [List.isPrefixOf, Ne.symm hs]
  simp only [hq, Bool.false_eq_true, if_false]
  rw [replaceAllChars]
  simp only [hp, Bool.false_eq_true, if_false]

theorem parse_quotedPattern (s rest : List Char) :
    regexpParseItems (quotedPattern s ++ rest)
      = (regexpParseItems rest).map (fun l => starItems s ++ l) := by
  induction s with
  | nil => simp [quotedPattern_nil, starItems]
  | cons c cs ih =>
    by_cases hs : c = '*'
    · subst hs
      rw [quotedPattern_star]
      simp only [List.cons_append]
      rw [parse_dot_star, ih]
      cases regexpParseItems rest <;> simp [starItems]
    · by_cases hc : regexpSpecial c = true
      · rw [quotedPattern_special c cs hc hs]
        simp only [List.cons_append]
        rw [parse_escaped _ _ hc, ih]
        cases regexpParseItems rest <;> simp [starItems, hs]
      · simp only [Bool.not_eq_true] at hc
        rw [quotedPattern_ordinary c cs hc]
        simp only [List.cons_append]
        rw [parse_ordinary _ _ hc, ih]
        cases regexpParseItems rest <;> simp [starItems, hs]

theorem compile_free (rhs : String) :
    regexpCompile ("(?i).*" ++ stringsReplaceAll (regexpQuoteMeta rhs) "\\*" ".*" ++ ".*")
      = some (Regexp.mk true (patternItems rhs true)) := by
  have hd : ("(?i).*" ++ stringsReplaceAll (regexpQuoteMeta rhs) "\\*" ".*" ++ ".*").data
      = '(' :: '?' :: 'i' :: ')' :: '.' :: '*' :: (quotedPattern rhs.data ++ ['.', '*']) := by
    simp [String.data_append, stringsReplaceAll, regexpQuoteMeta, quotedPattern]
  simp only [regexpCompile, hd]
  simp [List.isPrefixOf, parse_dot_star, parse_quotedPattern, regexpParseItems, patternItems]

theorem compile_anchored (rhs : String) :
    regexpCompile ("^" ++ stringsReplaceAll (regexpQuoteMeta rhs) "\\*" ".*" ++ "$")
      = some (Regexp.mk false (patternItems rhs false)) := by
  have hd : ("^" ++ stringsReplaceAll (regexpQuoteMeta rhs) "\\*" ".*" ++ "$").data
      = '^' :: (quotedPattern rhs.data ++ ['$']) := by
    simp [String.data_append, stringsReplaceAll, regexpQuoteMeta, quotedPattern]
  simp only [regexpCompile, hd]
  simp [List.isPrefixOf, parse_bol, parse_quotedPattern, parse_eol_end, patternItems]


theorem starItems_no_star (s : List Char) (h : '*' ∉ s) :
    starItems s = s.map RegexItem.lit := by
  induction s with
  | nil => rfl
  | cons c cs ih =>
    have hc : c ≠ '*' := fun e => h (by simp [e])
    have hcs : '*' ∉ cs := fun e => h (by simp [e])
    simp [starItems, hc] at ih ⊢
    exact ih hcs

theorem searchFrom_iff (p : Bool → List Char → Bool) (b : Bool) (x : List Char) :
    searchFrom p b x = true ↔ ∃ u v, x = u ++ v ∧ p (b && u.isEmpty) v = true := by
  induction x generalizing b with
  | nil =>
    constructor
    · intro h
      exact ⟨[], [], rfl, by simpa [searchFrom] using h⟩
    · rintro ⟨u, v, huv, h⟩
      obtain ⟨rfl, rfl⟩ : u = [] ∧ v = [] := by simpa using huv.symm
      simpa [searchFrom] using h
  | cons c cs ih =>
    simp only [searchFrom, Bool.or_eq_true, ih]
    constructor
    · rintro (h | ⟨u, v, huv, h⟩)
      · exact ⟨[], c :: cs, rfl, by simpa using h⟩
      · exact ⟨c :: u, v, by simp [huv], by simpa using h⟩
    · rintro ⟨u, v, huv, h⟩
      cases u with
      | nil =>
        left
        simp only [List.nil_append] at huv
        subst huv
        simpa using h
      | cons d u =>
        right
        simp only [List.cons_append, List.cons.injEq] at huv
        exact ⟨u, v, huv.2, by simpa using h⟩

theorem starLoop_iff (k : Bool → List Char → Bool) (b : Bool) (x : List Char) :
    starLoop k b x = true ↔
      ∃ u v, x = u ++ v ∧ '\n' ∉ u ∧ k (b && u.isEmpty) v = true := by
  induction x generalizing b with
  | nil =>
    constructor
    · intro h
      exact ⟨[], [], rfl, by simp, by simpa [starLoop] using h⟩
    · rintro ⟨u, v, huv, _, h⟩
      obtain ⟨rfl, rfl⟩ : u = [] ∧ v = [] := by simpa using huv.symm
      simpa [starLoop] using h
  | cons c cs ih =>
    simp only [starLoop, Bool.or_eq_true, Bool.and_eq_true, ih]
    constructor
    · rintro (h | ⟨hc, u, v, huv, hu, h⟩)
      · exact ⟨[], c :: cs, rfl, by simp, by simpa using h⟩
      · refine ⟨c :: u, v, by simp [huv], ?_, by simpa using h⟩
        have hc' : c ≠ '\n' := by simpa using hc
        simp only [List.mem_cons, not_or]
        exact ⟨fun e => hc' e.symm, hu⟩
    · rintro ⟨u, v, huv, hu, h⟩
      cases u with
      | nil =>
        left
        simp only [List.nil_append] at huv
        subst huv
        simpa using h
      | cons d u =>
        right
        simp only [List.cons_append, List.cons.injEq] at huv
        simp only [List.mem_cons, not_or] at hu
        obtain ⟨rfl, hcs⟩ := huv
        refine ⟨?_, u, v, hcs, hu.2, by simpa using h⟩
        simpa using fun e => hu.1 e.symm

theorem matchItems_lit_nil (lib : GoLib) (fc : Bool) (c : Char) (r : List RegexItem) (b : Bool) :
    matchItems lib fc (RegexItem.lit c :: r) b [] = false := rfl

theorem matchItems_lit_cons (lib : GoLib) (fc : Bool) (c : Char) (r : List RegexItem) (b : Bool)
    (d : Char) (t : List Char) :
    matchItems lib fc (RegexItem.lit c :: r) b (d :: t)
      = (charMatches lib fc c d && matchItems lib fc r false t) := rfl

theorem matchItems_lits (lib : GoLib) (fc : Bool) (t : List Char) (rest : List RegexItem)
    (b : Bool) (x : List Char) :
    matchItems lib fc (t.map RegexItem.lit ++ rest) b x = true ↔
      ∃ mid y, x = mid ++ y ∧
        List.Forall₂ (fun c d => charMatches lib fc c d = true) t mid ∧
        matchItems lib fc rest (b && t.isEmpty) y = true := by
  induction t generalizing b x with
  | nil =>
    constructor
    · intro h
      exact ⟨[], x, rfl, List.Forall₂.nil, by simpa using h⟩
    · rintro ⟨mid, y, hxy, hf, h⟩
      cases hf
      simp only [List.nil_append] at hxy
      subst hxy
      simpa using h
  | cons c cs ih =>
    cases x with
    | nil =>
      simp only [List.map_cons, List.cons_append, matchItems_lit_nil]
      constructor
      · intro h
        cases h
      · rintro ⟨mid, y, hxy, hf, _⟩
        cases hf
        simp at hxy
    | cons d x =>
      simp only [List.map_cons, List.cons_append, matchItems_lit_cons, Bool.and_eq_true, ih]
      constructor
      · rintro ⟨hcd, mid, y, hxy, hf, h⟩
        exact ⟨d :: mid, y, by simp [hxy], List.Forall₂.cons hcd hf, by simpa using h⟩
      · rintro ⟨mid, y, hxy, hf, h⟩
        cases hf with
        | cons hcd hf' =>
          simp only [List.cons_append, List.cons.injEq] at hxy
          obtain ⟨rfl, hx⟩ := hxy
          exact ⟨hcd, _, y, hx, hf', by simpa using h⟩

theorem forall₂_exact (lib : GoLib) (t mid : List Char) :
    List.Forall₂ (fun c d => charMatches lib false c d = true) t mid ↔ mid = t := by
  constructor
  · intro h
    induction h with
    | nil => rfl
    | cons hcd _ ih =>
      simp [charMatches] at hcd
      simp [hcd, ih]
  · rintro rfl
    induction mid with
    | nil => exact List.Forall₂.nil
    | cons c cs ih => exact List.Forall₂.cons (by simp [charMatches]) ih

theorem forall₂_fold (lib : GoLib) (t mid : List Char) :
    List.Forall₂ (fun c d => charMatches lib true c d = true) t mid ↔
      mid.map lib.foldKey = t.map lib.foldKey := by
  constructor
  · intro h
    induction h with
    | nil => rfl
    | cons hcd _ ih =>
      simp [charMatches] at hcd
      simp [hcd, ih]
  · intro h
    induction t generalizing mid with
    | nil =>
      have : mid = [] := by simpa using h
      subst this
      exact List.Forall₂.nil
    | cons c cs ih =>
      cases mid with
      | nil => simp at h
      | cons d ds =>
        simp only [List.map_cons, List.cons.injEq] at h
        exact List.Forall₂.cons (by simp [charMatches, h.1]) (ih ds h.2)

theorem newStringExpr_regex (lib : GoLib) (rhs : String) (free : Bool)
    (h : (free || stringsContains rhs '*') = true) :
    newStringExpr lib rhs free = some (fun v =>
      match v with
      | GoAny.str lhs => searchFrom (matchItems lib free (patternItems rhs free)) true lhs.data
      | GoAny.number lhs => searchFrom (matchItems lib free (patternItems rhs free)) true lhs.data
      | _ => false) := by
  cases free with
  | true => simp [newStringExpr, compile_free, Regexp.MatchString]
  | false =>
    simp only [Bool.false_or] at h
    simp [newStringExpr, h, compile_anchored, Regexp.MatchString]

theorem newStringExpr_exact (lib : GoLib) (rhs : String)
    (h : stringsContains rhs '*' = false) :
    newStringExpr lib rhs false = some (fun v =>
      match v with
      | GoAny.str lhs => lhs == rhs
      | GoAny.number lhs => lhs == rhs
      | _ => false) := by
  simp [newStringExpr, h]

theorem stringsContains_iff (s : String) (c : Char) :
    stringsContains s c = true ↔ c ∈ s.data := by
  simp [stringsContains]

theorem newExpr_ident (lib : GoLib) (free : Bool) (s : String) :
    newExpr lib free (identExpr s) = newStringExpr lib s free := by
  simp [identExpr, newExpr, newValueExpr]

theorem newExpr_quoted (lib : GoLib) (free : Bool) (s : String) :
    newExpr lib free (quotedExpr s) = newStringLitExpr lib s free := by
  simp [quotedExpr, newExpr, newValueExpr, StringFragments.String]


theorem anchored_search (p : Bool → List Char → Bool) (hp : ∀ x, p false x = false)
    (x : List Char) : searchFrom p true x = p true x := by
  have hfalse : ∀ y, searchFrom p false y = false := by
    intro y
    induction y with
    | nil => simp [searchFrom, hp]
    | cons c cs ih => simp [searchFrom, hp, ih]
  cases x with
  | nil => rfl
  | cons c cs => simp [searchFrom, hfalse]

/-- The free-text pattern of a term without `*` matches exactly the texts that
contain the term up to case folding. -/
theorem free_match_iff (lib : GoLib) (t : String) (m : List Char) (ht : '*' ∉ t.data) :
    searchFrom (matchItems lib true (patternItems t true)) true m = true ↔
      ∃ pre mid post, m = pre ++ mid ++ post ∧
        mid.map lib.foldKey = t.data.map lib.foldKey := by
  simp only [patternItems, if_true, starItems_no_star _ ht]
  rw [searchFrom_iff]
  constructor
  · rintro ⟨u, v, rfl, h⟩
    simp only [matchItems] at h
    rw [starLoop_iff] at h
    obtain ⟨u', v', rfl, _, h⟩ := h
    rw [matchItems_lits] at h
    obtain ⟨mid, y, rfl, hf, _⟩ := h
    exact ⟨u ++ u', mid, y, by simp, (forall₂_fold lib _ _).1 hf⟩
  · rintro ⟨pre, mid, post, rfl, h⟩
    refine ⟨pre, mid ++ post, by simp, ?_⟩
    simp only [matchItems]
    rw [starLoop_iff]
    refine ⟨[], mid ++ post, rfl, by simp, ?_⟩
    rw [matchItems_lits]
    refine ⟨mid, post, rfl, (forall₂_fold lib _ _).2 h, ?_⟩
    simp only [matchItems]
    rw [starLoop_iff]
    exact ⟨[], post, rfl, by simp, by simp [matchItems]⟩

/-- The anchored pattern of `s*`, for `s` without `*`, matches exactly the texts
that start with `s` and go on without a line feed. -/
theorem prefix_match_iff (lib : GoLib) (s : String) (v : List Char) (hs : '*' ∉ s.data) :
    searchFrom (matchItems lib false (patternItems (s ++ "*") false)) true v = true ↔
      ∃ rest, v = s.data ++ rest ∧ '\n' ∉ rest := by
  have hitems : starItems (s ++ "*").data = s.data.map RegexItem.lit ++ [RegexItem.anyStar] := by
    simp [starItems, String.data_append, ← starItems_no_star _ hs]
  rw [anchored_search _ (by intro x; simp [patternItems, matchItems])]
  simp only [patternItems, Bool.false_eq_true, if_false, hitems, matchItems, Bool.true_and,
    List.append_assoc, List.singleton_append]
  rw [matchItems_lits]
  constructor
  · rintro ⟨mid, y, rfl, hf, h⟩
    rw [forall₂_exact] at hf
    subst hf
    simp only [matchItems] at h
    rw [starLoop_iff] at h
    obtain ⟨u, w, rfl, hu, hw⟩ := h
    have hw' : w = [] := by simpa [matchItems] using hw
    subst hw'
    exact ⟨u ++ [], rfl, by simpa using hu⟩
  · rintro ⟨rest, rfl, hrest⟩
    refine ⟨s.data, rest, rfl, (forall₂_exact lib _ _).2 rfl, ?_⟩
    simp only [matchItems]
    rw [starLoop_iff]
    exact ⟨rest, [], by simp, hrest, by simp [matchItems]⟩

theorem newFieldLoader_service (p : String) (e : LogEntry) :
    newFieldLoader p "service" e = mapIndex e "service" := rfl

theorem newFieldLoader_env (p : String) (e : LogEntry) :
    newFieldLoader p "env" e = mapIndex e "env" := rfl

theorem newFieldLoader_message (p : String) (e : LogEntry) :
    newFieldLoader p "message" e = mapIndex e "message" := rfl

theorem newStringLitExpr_free_plain (lib : GoLib) (s : String)
    (h : stringsReplaceAll s "*" " " = s) :
    newStringLitExpr lib s true = newStringExpr lib s true := by
  simp [newStringLitExpr, h]

theorem newExpr_sub (lib : GoLib) (free : Bool) (s : SubExpr) :
    newExpr lib free (Expr.mk none (some s)) = newSubExpr lib free s := by
  simp [newExpr]

/-- C1: the scenario query compiles, and on a fresh monitor `Update` with the
event of the test takes the counter from 0 to 1, while `Update` with the same
event without `env` leaves it at 0. -/
theorem scenario_counter (lib : GoLib) :
    ∃ m, newMonitor lib scenarioQuery = some m ∧ m.counter = 0 ∧
      (m.Update scenarioEvent).counter = 1 ∧ (m.Update scenarioEventNoEnv).counter = 0 := by
  have hmsg : searchFrom (matchItems lib true (patternItems "no stream matches subject" true))
      true "no stream matches subject".data = true :=
    (free_match_iff lib _ _ (by decide)).2 ⟨[], _, [], by simp, rfl⟩
  simp only [newMonitor, scenarioQuery, newQuery, queryLoop, newComplexQuery, newTerm, fieldTerm,
    freeTerm, newCondition, newFreeCondition, newExpr_ident, newExpr_quoted, newExpr_sub, newSubExpr,
    subExprLoop, newComplexExpr,
    newStringExpr_exact lib "linode-livekit-cloud-media-production-v1" (by decide),
    newStringExpr_exact lib "livekit-cloud-media-production-v1" (by decide),
    newStringExpr_exact lib "cloud-media" (by decide),
    newStringExpr_exact lib "production" (by decide),
    newStringLitExpr_free_plain lib "no stream matches subject" (by decide),
    newStringExpr_regex lib "no stream matches subject" true rfl,
    newFieldLoader_service, newFieldLoader_env, newFieldLoader_message]
  simp only [String.reduceEq, if_true, if_false, Bool.false_eq_true, Option.map_some']
  refine ⟨_, rfl, rfl, ?_, ?_⟩
  · simp [monitor.Update, scenarioEvent, mapIndex, mapLookup, hmsg, wrapInt64]
  · simp [monitor.Update, scenarioEventNoEnv, mapIndex, mapLookup]

/-- What `newComplexQuery` does with the two results: `OR` for the operator
`OR`, `AND` otherwise. -/
theorem newComplexQuery_some (lib : GoLib) (op : String) (t : Term) (lhs rhs : queryFunc)
    (ht : newTerm lib t = some rhs) :
    newComplexQuery lib (ComplexQuery.mk op t) lhs
      = some (fun e => if op = "OR" then lhs e || rhs e else lhs e && rhs e) := by
  by_cases h : op = "OR" <;> simp [newComplexQuery, ht, h]

/-- The grouping `newQuery` gives a chain of three terms: the last operator is
applied first, to the first and the last term, and the first operator last. -/
theorem newQuery_three (lib : GoLib) (t0 t1 t2 : Term) (op1 op2 : String) (f0 f1 f2 : queryFunc)
    (h0 : newTerm lib t0 = some f0) (h1 : newTerm lib t1 = some f1)
    (h2 : newTerm lib t2 = some f2) :
    newQuery lib (Query.mk t0 [ComplexQuery.mk op1 t1, ComplexQuery.mk op2 t2])
      = some (fun e =>
          if op1 = "OR" then (if op2 = "OR" then f0 e || f2 e else f0 e && f2 e) || f1 e
          else (if op2 = "OR" then f0 e || f2 e else f0 e && f2 e) && f1 e) := by
  simp only [newQuery, h0, queryLoop, newComplexQuery_some lib op2 t2 f0 f2 h2,
    newComplexQuery_some lib op1 t1 _ f1 h1]

/-- C2: on the event with message `c` the three terms of `a AND b OR c` are
false, false and true, so that `(a AND b) OR c` is true, and the predicate
compiled by `newQuery` is false. -/
theorem newQuery_and_or_not_left_fold :
    ∃ q t0 t1 t2,
      newQuery asciiLib andOrQuery = some q ∧
      newTerm asciiLib (freeTerm false (identExpr "a")) = some t0 ∧
      newTerm asciiLib (freeTerm false (identExpr "b")) = some t1 ∧
      newTerm asciiLib (freeTerm false (identExpr "c")) = some t2 ∧
      ((t0 [("message", GoAny.str "c")] && t1 [("message", GoAny.str "c")])
        || t2 [("message", GoAny.str "c")]) = true ∧
      q [("message", GoAny.str "c")] = false :=
  ⟨_, _, _, _, rfl, rfl, rfl, rfl, by decide, by decide⟩

/-- C3: in the event `{a: {b: {c: "v"}}}` the value at the nested path `a.b.c`
is the text `v`, and the loader of `newFieldLoader` for `a.b.c` returns nil. -/
theorem newFieldLoader_depth_three :
    resolvePath ["a", "b", "c"] nestedEvent = GoAny.str "v" ∧
      newFieldLoader "" "a.b.c" nestedEvent = GoAny.nil :=
  ⟨rfl, rfl⟩

/-- C4: in the event `{a: {}, b: {c: "v"}}` the path `a.b.c` is absent, and the
condition `a.b.c:v` is true on it and its negation false. -/
theorem condition_on_absent_path :
    resolvePath ["a", "b", "c"] strayEvent = GoAny.nil ∧
      (newCondition asciiLib ⟨false, none, "a.b.c", identExpr "v"⟩).map (fun q => q strayEvent)
        = some true ∧
      (newCondition asciiLib ⟨true, none, "a.b.c", identExpr "v"⟩).map (fun q => q strayEvent)
        = some false :=
  ⟨rfl, by decide, by decide⟩

theorem newStringExpr_nil (lib : GoLib) (rhs : String) (free : Bool) (f : exprFunc)
    (h : newStringExpr lib rhs free = some f) : f GoAny.nil = false := by
  by_cases hc : (free || stringsContains rhs '*') = true
  · rw [newStringExpr_regex lib rhs free hc] at h
    cases h
    rfl
  · have hfree : free = false := by
      cases free
      · rfl
      · simp at hc
    subst hfree
    rw [newStringExpr_exact lib rhs (by simpa using hc)] at h
    cases h
    rfl

theorem newStringLitExpr_nil (lib : GoLib) (rhs : String) (free : Bool) (f : exprFunc)
    (h : newStringLitExpr lib rhs free = some f) : f GoAny.nil = false := by
  cases free with
  | true => exact newStringExpr_nil lib _ true f (by simpa [newStringLitExpr] using h)
  | false =>
    simp only [newStringLitExpr, Bool.false_eq_true, if_false, Option.some.injEq] at h
    subst h
    rfl

theorem newValueExpr_nil (lib : GoLib) (ast : Value) (free : Bool) (f : exprFunc)
    (h : newValueExpr lib ast free = some f) : f GoAny.nil = false := by
  obtain ⟨lit, s, o, c⟩ := ast
  by_cases hl : lit.isEmpty = true
  · simp only [newValueExpr, hl, Bool.not_true, Bool.false_eq_true, if_false] at h
    cases s with
    | some s => exact newStringExpr_nil lib s free f h
    | none =>
      cases o with
      | some o =>
        simp only [Option.some.injEq] at h
        subst h
        simp [newOpenRangeExpr, numberToFloat64]
      | none =>
        cases c with
        | some c =>
          simp only [Option.some.injEq] at h
          subst h
          simp [newClosedRangeExpr, numberToFloat64]
        | none => simp at h
  · simp only [newValueExpr, hl, Bool.not_false, if_true] at h
    exact newStringLitExpr_nil lib _ free f h

mutual
/-- A compiled value expression is false on the nil interface. -/
theorem newExpr_nil (lib : GoLib) (free : Bool) :
    ∀ (x : Expr) (f : exprFunc), newExpr lib free x = some f → f GoAny.nil = false
  | Expr.mk (some v) _, f, h => newValueExpr_nil lib v free f (by simpa [newExpr] using h)
  | Expr.mk none (some s), f, h => newSubExpr_nil lib free s f (by simpa [newExpr] using h)
  | Expr.mk none none, f, h => by simp [newExpr] at h
theorem newSubExpr_nil (lib : GoLib) (free : Bool) :
    ∀ (s : SubExpr) (f : exprFunc), newSubExpr lib free s = some f → f GoAny.nil = false
  | SubExpr.mk first rest, f, h => by
    simp only [newSubExpr] at h
    cases h0 : newExpr lib free first with
    | none => simp [h0] at h
    | some e =>
      simp only [h0] at h
      exact subExprLoop_nil lib free rest e f (newExpr_nil lib free first e h0) h
theorem subExprLoop_nil (lib : GoLib) (free : Bool) :
    ∀ (rest : List ComplexExpr) (e f : exprFunc), e GoAny.nil = false →
      subExprLoop lib free rest e = some f → f GoAny.nil = false
  | [], e, f, he, h => by
    simp only [subExprLoop, Option.some.injEq] at h
    subst h
    exact he
  | ComplexExpr.mk op x :: cs, e, f, he, h => by
    simp only [subExprLoop] at h
    cases h1 : subExprLoop lib free cs e with
    | none => simp [h1] at h
    | some e' =>
      have he' := subExprLoop_nil lib free cs e e' he h1
      simp only [h1, newComplexExpr] at h
      cases h2 : newExpr lib free x with
      | none => simp [h2] at h
      | some rhs =>
        simp only [h2] at h
        by_cases ha : op = "AND"
        · simp only [ha, if_true, Option.some.injEq] at h
          subst h
          simp [he']
        · by_cases ho : op = "OR"
          · have hr := newExpr_nil lib free x rhs h2
            subst ho
            simp only [String.reduceEq, if_false, if_true, Option.some.injEq] at h
            subst h
            simp [he', hr]
          · simp [ha, ho] at h
end

/-- For a name of at most two segments the loader returns the value at the
nested path. -/
theorem fieldLoaderLoop_short (e : LogEntry) (parts : List String) (h : parts.length ≤ 2) :
    fieldLoaderLoop e parts e = resolvePath parts e := by
  match parts, h with
  | [], _ => rfl
  | [_], _ => rfl
  | [a, b], _ =>
    simp only [fieldLoaderLoop, resolvePath]
    cases mapLookup a e with
    | none => rfl
    | some v => cases v <;> rfl

/-- The missing-field policy for names of at most two segments: when the nested
path holds no value, the condition is false, and true when negated. -/
theorem condition_missing_short (lib : GoLib) (ast : Condition) (q : queryFunc) (e : LogEntry)
    (hlen : (stringsSplit ast.FieldName '.').length ≤ 2)
    (habs : resolvePath (stringsSplit ast.FieldName '.') e = GoAny.nil)
    (hq : newCondition lib ast = some q) : q e = ast.Exclusion := by
  have hload : newFieldLoader (ast.FieldPrefix.getD "") ast.FieldName e = GoAny.nil := by
    simp only [newFieldLoader]
    rw [fieldLoaderLoop_short e _ hlen, habs]
  simp only [newCondition] at hq
  cases hx : newExpr lib false ast.Value with
  | none => simp [hx] at hq
  | some rhs =>
    have hnil := newExpr_nil lib false ast.Value rhs hx
    simp only [hx] at hq
    cases hex : ast.Exclusion with
    | true =>
      simp only [hex, if_true, Option.some.injEq] at hq
      subst hq
      simp [hload, hnil]
    | false =>
      simp only [hex, Bool.false_eq_true, if_false, Option.some.injEq] at hq
      subst hq
      simp [hload, hnil]

/-- C5 (counterexample): on the event with service `a`, env `production` and a
message that contains `no stream matches subject` as a proper substring, the
negated field condition on `message` with the quoted literal is true, and so is
the example query; and were the third condition a condition on a field named
`-message`, the query would be false on an event whose message does not
contain the literal. -/
theorem example_query_substring_message :
    (newCondition asciiLib ⟨true, none, "message", quotedExpr "no stream matches subject"⟩).map
        (fun q => q exampleEvent) = some true ∧
      (newQuery asciiLib exampleQuery).map (fun q => q exampleEvent) = some true ∧
      (newQuery asciiLib exampleQueryDashName).map (fun q => q exampleEventOther) = some false :=
  ⟨by decide, by decide, by decide⟩

/-- C5 (amended): the example query, read as three field conditions with the
third negated, is true on an event exactly when the service is a text or
number that reads `a` or `b`, the env is a text or number that reads
`production`, and the message is not a text equal, up to case folding, to the
whole literal `no stream matches subject`. -/
theorem example_query_matches (lib : GoLib) (e : LogEntry) :
    ∃ q, newQuery lib exampleQuery = some q ∧
      (q e = true ↔
        (textOf (mapIndex e "service") = some "a" ∨ textOf (mapIndex e "service") = some "b") ∧
        textOf (mapIndex e "env") = some "production" ∧
        ¬ ∃ m, mapIndex e "message" = GoAny.str m ∧
          m.data.map lib.foldKey = "no stream matches subject".data.map lib.foldKey) := by
  simp only [exampleQuery, newQuery, queryLoop, newComplexQuery, newTerm, fieldTerm,
    newCondition, newExpr_ident, newExpr_quoted, newExpr_sub, newSubExpr,
    subExprLoop, newComplexExpr,
    newStringExpr_exact lib "a" (by decide),
    newStringExpr_exact lib "b" (by decide),
    newStringExpr_exact lib "production" (by decide),
    newStringLitExpr,
    newFieldLoader_service, newFieldLoader_env, newFieldLoader_message]
  simp only [String.reduceEq, if_true, if_false, Bool.false_eq_true]
  refine ⟨_, rfl, ?_⟩
  generalize mapIndex e "service" = s
  generalize mapIndex e "env" = v
  generalize mapIndex e "message" = m
  cases s <;> cases v <;> cases m <;> simp [textOf, stringsEqualFold] <;> tauto

/-- C6 (counterexample): the field-scoped predicate of the quoted literal
`foo*` is false on the text `foobar`. -/
theorem quoted_star_no_wildcard :
    (newValueExpr asciiLib ⟨[⟨"", "foo*"⟩], none, none, none⟩ false).map
      (fun f => f (GoAny.str "foobar")) = some false := by
  decide

/-- C6 (amended): a `*` inside a quoted literal of a field condition is an
ordinary character: the predicate of a quoted literal containing `*` is true
exactly on the text values equal to the whole literal up to case folding. -/
theorem newValueExpr_quoted_star (lib : GoLib) (frags : StringFragments) (s : Option String)
    (o : Option OpenRange) (c : Option ClosedRange) (hne : frags ≠ [])
    (_hstar : '*' ∈ frags.String.data) :
    ∃ f, newValueExpr lib ⟨frags, s, o, c⟩ false = some f ∧
      ∀ v, f v = true ↔
        ∃ t, v = GoAny.str t ∧
          t.data.map lib.foldKey = frags.String.data.map lib.foldKey := by
  have hl : frags.isEmpty = false := by
    cases frags with
    | nil => exact absurd rfl hne
    | cons a l => rfl
  have hf : newValueExpr lib ⟨frags, s, o, c⟩ false = some (fun v =>
      match v with
      | GoAny.str lhs => stringsEqualFold lib lhs frags.String
      | _ => false) := by
    simp [newValueExpr, hl, newStringLitExpr]
  refine ⟨_, hf, ?_⟩
  intro v
  cases v <;> simp [stringsEqualFold]

theorem newValueExpr_quoted_star_witness :
    ([⟨"", "foo*"⟩] : StringFragments) ≠ [] ∧
      '*' ∈ (StringFragments.String [⟨"", "foo*"⟩]).data ∧
      ∃ f, newValueExpr asciiLib ⟨[⟨"", "foo*"⟩], none, none, none⟩ false = some f ∧
        ∀ v, f v = true ↔
          ∃ t, v = GoAny.str t ∧
            t.data.map asciiLib.foldKey
              = (StringFragments.String [⟨"", "foo*"⟩]).data.map asciiLib.foldKey :=
  ⟨List.cons_ne_nil _ _, by decide,
    newValueExpr_quoted_star asciiLib [⟨"", "foo*"⟩] none none none (List.cons_ne_nil _ _)
      (by decide)⟩

/-- C7 (counterexample): the text `foo`, a line feed, `bar` starts with `foo`,
and the field-scoped predicate of the bare identifier `foo*` is false on it. -/
theorem wildcard_stops_at_line_feed :
    "foo".data <+: "foo\nbar".data ∧
      (newStringExpr asciiLib ("foo" ++ "*") false).map (fun f => f (GoAny.str "foo\nbar"))
        = some false :=
  ⟨⟨"\nbar".data, by decide⟩, by decide⟩

/-- C7 (amended): for `s` without `*` the field-scoped predicate of the bare
identifier `s*` is true on a text value exactly when the text starts with `s`,
compared character by character, and the remainder contains no line feed. -/
theorem newStringExpr_prefix (lib : GoLib) (s v : String) (hs : '*' ∉ s.data) :
    ∃ f, newStringExpr lib (s ++ "*") false = some f ∧
      (f (GoAny.str v) = true ↔ ∃ rest, v.data = s.data ++ rest ∧ '\n' ∉ rest) := by
  have hc : (false || stringsContains (s ++ "*") '*') = true := by
    simp [stringsContains, String.data_append]
  refine ⟨_, newStringExpr_regex lib (s ++ "*") false hc, ?_⟩
  exact prefix_match_iff lib s v.data hs

theorem newStringExpr_prefix_witness :
    '*' ∉ "foo".data ∧
      ∃ f, newStringExpr asciiLib ("foo" ++ "*") false = some f ∧
        (f (GoAny.str "foobar") = true ↔
          ∃ rest, "foobar".data = "foo".data ++ rest ∧ '\n' ∉ rest) :=
  ⟨by decide, newStringExpr_prefix asciiLib "foo" "foobar" (by decide)⟩

/-- C8: for a bare identifier `s` without `*` the field-scoped predicate is true
exactly on the text value `s` and on the number whose text is `s`; it is false
on a nested mapping and on no value. -/
theorem newStringExpr_field_exact (lib : GoLib) (s : String) (hs : '*' ∉ s.data) :
    ∃ f, newStringExpr lib s false = some f ∧
      (∀ v, f v = true ↔ v = GoAny.str s ∨ v = GoAny.number s) ∧
      (∀ m, f (GoAny.map m) = false) ∧ f GoAny.nil = false := by
  have hc : stringsContains s '*' = false := by
    simpa [stringsContains] using hs
  refine ⟨_, newStringExpr_exact lib s hc, ?_, fun _ => rfl, rfl⟩
  intro v
  cases v <;> simp

theorem newStringExpr_field_exact_witness :
    '*' ∉ "production".data ∧
      ∃ f, newStringExpr asciiLib "production" false = some f ∧
        (∀ v, f v = true ↔ v = GoAny.str "production" ∨ v = GoAny.number "production") ∧
        (∀ m, f (GoAny.map m) = false) ∧ f GoAny.nil = false :=
  ⟨by decide, newStringExpr_field_exact asciiLib "production" (by decide)⟩

/-- C9: for a quoted literal `s` without `*` the field-scoped predicate is true
exactly on the text values equal to the whole of `s` up to case folding. -/
theorem newStringLitExpr_field_fold (lib : GoLib) (s : String) (_hs : '*' ∉ s.data) :
    ∃ f, newStringLitExpr lib s false = some f ∧
      ∀ v, f v = true ↔
        ∃ t, v = GoAny.str t ∧ t.data.map lib.foldKey = s.data.map lib.foldKey := by
  have hf : newStringLitExpr lib s false = some (fun v =>
      match v with
      | GoAny.str lhs => stringsEqualFold lib lhs s
      | _ => false) := by
    simp [newStringLitExpr]
  refine ⟨_, hf, ?_⟩
  intro v
  cases v <;> simp [stringsEqualFold]

theorem newStringLitExpr_field_fold_witness :
    '*' ∉ "Production".data ∧
      ∃ f, newStringLitExpr asciiLib "Production" false = some f ∧
        ∀ v, f v = true ↔
          ∃ t, v = GoAny.str t ∧
            t.data.map asciiLib.foldKey = "Production".data.map asciiLib.foldKey :=
  ⟨by decide, newStringLitExpr_field_fold asciiLib "Production" (by decide)⟩

/-- C10: for a bare term `t` without `*` and an event whose `message` is the
text `m`, the free-text condition of `t` is true exactly when `m` contains a
run of characters equal to `t` up to case folding. -/
theorem newFreeCondition_contains (lib : GoLib) (t m : String) (e : LogEntry)
    (ht : '*' ∉ t.data) (hm : mapLookup "message" e = some (GoAny.str m)) :
    ∃ q, newFreeCondition lib ⟨false, identExpr t⟩ = some q ∧
      (q e = true ↔
        ∃ pre mid post, m.data = pre ++ mid ++ post ∧
          mid.map lib.foldKey = t.data.map lib.foldKey) := by
  have hq : newFreeCondition lib ⟨false, identExpr t⟩ = some (fun e =>
      match mapIndex e "message" with
      | GoAny.str lhs => searchFrom (matchItems lib true (patternItems t true)) true lhs.data
      | GoAny.number lhs => searchFrom (matchItems lib true (patternItems t true)) true lhs.data
      | _ => false) := by
    simp [newFreeCondition, newExpr_ident, newStringExpr_regex lib t true rfl,
      newFieldLoader_message]
  refine ⟨_, hq, ?_⟩
  simp only [mapIndex, hm, Option.getD_some]
  exact free_match_iff lib t m.data ht

theorem newFreeCondition_contains_witness :
    '*' ∉ "FOO".data ∧
      mapLookup "message" [("message", GoAny.str "a foo b")] = some (GoAny.str "a foo b") ∧
      ∃ q, newFreeCondition asciiLib ⟨false, identExpr "FOO"⟩ = some q ∧
        (q [("message", GoAny.str "a foo b")] = true ↔
          ∃ pre mid post, "a foo b".data = pre ++ mid ++ post ∧
            mid.map asciiLib.foldKey = "FOO".data.map asciiLib.foldKey) :=
  ⟨by decide, rfl,
    newFreeCondition_contains asciiLib "FOO" "a foo b" [("message", GoAny.str "a foo b")]
      (by decide) rfl⟩

theorem replaceAll_star_space (s : List Char) :
    replaceAllChars ['*'] [' '] 0 s = s.map (fun c => if c = '*' then ' ' else c) := by
  induction s with
  | nil => rfl
  | cons c cs ih =>
    by_cases hc : c = '*'
    · subst hc
      simp [replaceAllChars, List.isPrefixOf, ih]
    · simp [replaceAllChars, List.isPrefixOf, ih, hc, Ne.symm hc]

theorem stringsReplaceAll_star_space (s : String) :
    stringsReplaceAll s "*" " " = starsToSpaces s := by
  simp only [stringsReplaceAll, starsToSpaces]
  exact congrArg String.mk (replaceAll_star_space s.data)

theorem starsToSpaces_no_star (s : String) : '*' ∉ (starsToSpaces s).data := by
  simp only [starsToSpaces, List.mem_map, not_exists, not_and]
  intro c _ h
  by_cases hc : c = '*' <;> simp_all

/-- C11: the free-text predicate of a quoted literal `s` is the free-text
predicate of the bare text `s'`, which is `s` with every `*` replaced by a
space; it holds no `*`, and the predicate is true on a text exactly when the
text contains a run of characters equal to `s'` up to case folding. -/
theorem newStringLitExpr_free_quirk (lib : GoLib) (s : String) :
    newStringLitExpr lib s true = newStringExpr lib (starsToSpaces s) true ∧
      '*' ∉ (starsToSpaces s).data ∧
      ∃ f, newStringLitExpr lib s true = some f ∧
        ∀ m : String, f (GoAny.str m) = true ↔
          ∃ pre mid post, m.data = pre ++ mid ++ post ∧
            mid.map lib.foldKey = (starsToSpaces s).data.map lib.foldKey := by
  have h1 : newStringLitExpr lib s true = newStringExpr lib (starsToSpaces s) true := by
    simp [newStringLitExpr, stringsReplaceAll_star_space]
  refine ⟨h1, starsToSpaces_no_star s, _, h1.trans (newStringExpr_regex lib _ true rfl), ?_⟩
  intro m
  exact free_match_iff lib (starsToSpaces s) m.data (starsToSpaces_no_star s)

theorem F64.le_chain {a b c : F64} (hab : F64.le a b = true) (hbc : F64.le b c = true) :
    F64.le a c = true := by
  cases a <;> cases b <;> cases c <;> simp_all [F64.le]
  exact hab.trans hbc

theorem F64.not_lt_of_le {a b : F64} (hab : F64.le a b = true) : F64.lt b a = false := by
  cases a <;> cases b <;> simp_all [F64.le, F64.lt]

theorem numberToFloat64_some (lib : GoLib) (v : GoAny) (x : F64) :
    numberToFloat64 lib v = some x ↔ ∃ s, v = GoAny.number s ∧ lib.parseFloat s = some x := by
  cases v <;> simp [numberToFloat64]

/-- C12: the closed-range predicate is true exactly on the numbers whose text
parses to a value `x` with `Min <= x` and `x <= Max`; it is false on a text, on
a nested mapping, on no value and on a number that does not parse; and when
`Max < Min` it is false on every value. -/
theorem newClosedRangeExpr_iff (lib : GoLib) (ast : ClosedRange) :
    (∀ v, newClosedRangeExpr lib ast v = true ↔
      ∃ s x, v = GoAny.number s ∧ lib.parseFloat s = some x ∧
        F64.le ast.Min x = true ∧ F64.le x ast.Max = true) ∧
    (∀ t, newClosedRangeExpr lib ast (GoAny.str t) = false) ∧
    (∀ m, newClosedRangeExpr lib ast (GoAny.map m) = false) ∧
    newClosedRangeExpr lib ast GoAny.nil = false ∧
    (∀ s, lib.parseFloat s = none → newClosedRangeExpr lib ast (GoAny.number s) = false) ∧
    (F64.lt ast.Max ast.Min = true → ∀ v, newClosedRangeExpr lib ast v = false) := by
  have hiff : ∀ v, newClosedRangeExpr lib ast v = true ↔
      ∃ s x, v = GoAny.number s ∧ lib.parseFloat s = some x ∧
        F64.le ast.Min x = true ∧ F64.le x ast.Max = true := by
    intro v
    cases v <;> simp [newClosedRangeExpr, numberToFloat64]
    rename_i s
    cases lib.parseFloat s <;> simp
  refine ⟨hiff, fun _ => rfl, fun _ => rfl, rfl, ?_, ?_⟩
  · intro s hs
    simp [newClosedRangeExpr, numberToFloat64, hs]
  · intro hlt v
    cases hv : newClosedRangeExpr lib ast v with
    | false => rfl
    | true =>
      obtain ⟨s, x, _, _, h1, h2⟩ := (hiff v).1 hv
      have := F64.not_lt_of_le (F64.le_chain h1 h2)
      rw [this] at hlt
      cases hlt

/-- C12 (witness): the range `[5 TO 1]`, whose lower bound exceeds the upper
one, is false on the number `3`. -/
theorem newClosedRangeExpr_iff_witness :
    F64.lt (F64.fin 1) (F64.fin 5) = true ∧
      newClosedRangeExpr asciiLib ⟨F64.fin 5, F64.fin 1⟩ (GoAny.number "3") = false :=
  ⟨by decide,
    (newClosedRangeExpr_iff asciiLib ⟨F64.fin 5, F64.fin 1⟩).2.2.2.2.2 (by decide)
      (GoAny.number "3")⟩

/-- C13: on a number whose text parses to `x` the open-range predicate with
bound `b` is `x > b` for the operator `>`, `x >= b` for `>=`, `x < b` for `<`
and `x <= b` for `<=`; on a text, a nested mapping, no value, a value of
another type or a number that does not parse it is false for every operator. -/
theorem newOpenRangeExpr_iff (lib : GoLib) (b : F64) :
    (∀ s x, lib.parseFloat s = some x →
      newOpenRangeExpr lib ⟨">", b⟩ (GoAny.number s) = F64.lt b x ∧
      newOpenRangeExpr lib ⟨">=", b⟩ (GoAny.number s) = F64.le b x ∧
      newOpenRangeExpr lib ⟨"<", b⟩ (GoAny.number s) = F64.lt x b ∧
      newOpenRangeExpr lib ⟨"<=", b⟩ (GoAny.number s) = F64.le x b) ∧
    (∀ op t, newOpenRangeExpr lib ⟨op, b⟩ (GoAny.str t) = false) ∧
    (∀ op m, newOpenRangeExpr lib ⟨op, b⟩ (GoAny.map m) = false) ∧
    (∀ op, newOpenRangeExpr lib ⟨op, b⟩ GoAny.nil = false) ∧
    (∀ op n, newOpenRangeExpr lib ⟨op, b⟩ (GoAny.other n) = false) ∧
    (∀ op s, lib.parseFloat s = none →
      newOpenRangeExpr lib ⟨op, b⟩ (GoAny.number s) = false) := by
  refine ⟨?_, fun _ _ => rfl, fun _ _ => rfl, fun _ => rfl, fun _ _ => rfl, ?_⟩
  · intro s x hx
    simp [newOpenRangeExpr, numberToFloat64, hx]
  · intro op s hs
    simp [newOpenRangeExpr, numberToFloat64, hs]

/-- C13 (witness): with the bound `5`, the number `7` satisfies `>` and `>=`
and fails `<` and `<=`. -/
theorem newOpenRangeExpr_iff_witness :
    asciiLib.parseFloat "7" = some (F64.fin 7) ∧
      (newOpenRangeExpr asciiLib ⟨">", F64.fin 5⟩ (GoAny.number "7")
          = F64.lt (F64.fin 5) (F64.fin 7) ∧
        newOpenRangeExpr asciiLib ⟨">=", F64.fin 5⟩ (GoAny.number "7")
          = F64.le (F64.fin 5) (F64.fin 7) ∧
        newOpenRangeExpr asciiLib ⟨"<", F64.fin 5⟩ (GoAny.number "7")
          = F64.lt (F64.fin 7) (F64.fin 5) ∧
        newOpenRangeExpr asciiLib ⟨"<=", F64.fin 5⟩ (GoAny.number "7")
          = F64.le (F64.fin 7) (F64.fin 5)) :=
  ⟨by decide, (newOpenRangeExpr_iff asciiLib (F64.fin 5)).1 "7" (F64.fin 7) (by decide)⟩

/-- C14: for a condition, a free-text condition and a sub-query alike, the
predicate compiled with `Exclusion = true` is the negation of the predicate
compiled from the same node with `Exclusion = false` (and compiles exactly when
that one does); the predicate of a sub-query that is not negated is the
predicate of its query, so the negation is applied to the query as a whole. -/
theorem exclusion_negates (lib : GoLib) :
    (∀ p n v, newCondition lib ⟨true, p, n, v⟩
      = (newCondition lib ⟨false, p, n, v⟩).map (fun q => fun e => !q e)) ∧
    (∀ v, newFreeCondition lib ⟨true, v⟩
      = (newFreeCondition lib ⟨false, v⟩).map (fun q => fun e => !q e)) ∧
    (∀ ast, newSubQuery lib (SubQuery.mk true ast)
      = (newSubQuery lib (SubQuery.mk false ast)).map (fun q => fun e => !q e)) ∧
    (∀ ast, newSubQuery lib (SubQuery.mk false ast) = newQuery lib ast) := by
  refine ⟨?_, ?_, ?_, ?_⟩
  · intro p n v
    simp only [newCondition]
    cases newExpr lib false v <;> simp
  · intro v
    simp only [newFreeCondition]
    cases newExpr lib true v <;> simp
  · intro ast
    simp only [newSubQuery]
    cases newQuery lib ast <;> simp
  · intro ast
    simp only [newSubQuery]
    cases newQuery lib ast <;> simp

theorem queryLoop_and (lib : GoLib) (q0 : queryFunc) (rest : List ComplexQuery)
    (fs : List queryFunc)
    (hrest : List.Forall₂ (fun c f => newTerm lib c.term = some f) rest fs)
    (hop : ∀ c ∈ rest, c.operator ≠ "OR") :
    ∃ q, queryLoop lib rest q0 = some q ∧ ∀ e, q e = (q0 e && fs.all (fun f => f e)) := by
  induction hrest with
  | nil => exact ⟨q0, rfl, fun e => by simp⟩
  | @cons c f cs fs' hc _ ih =>
    obtain ⟨q', hq', hval⟩ := ih (fun d hd => hop d (List.mem_cons_of_mem _ hd))
    obtain ⟨op, t⟩ := c
    have hne : op ≠ "OR" := hop (ComplexQuery.mk op t) (List.mem_cons_self _ _)
    simp only [ComplexQuery.term] at hc
    have hstep : queryLoop lib (ComplexQuery.mk op t :: cs) q0
        = some (fun e => if op = "OR" then q' e || f e else q' e && f e) := by
      simp only [queryLoop, hq', newComplexQuery_some lib op t q' f hc]
    refine ⟨_, hstep, ?_⟩
    intro e
    simp only [hne, if_false, hval, List.all_cons]
    cases q0 e <;> cases f e <;> simp

theorem queryLoop_or (lib : GoLib) (q0 : queryFunc) (rest : List ComplexQuery)
    (fs : List queryFunc)
    (hrest : List.Forall₂ (fun c f => newTerm lib c.term = some f) rest fs)
    (hop : ∀ c ∈ rest, c.operator = "OR") :
    ∃ q, queryLoop lib rest q0 = some q ∧ ∀ e, q e = (q0 e || fs.any (fun f => f e)) := by
  induction hrest with
  | nil => exact ⟨q0, rfl, fun e => by simp⟩
  | @cons c f cs fs' hc _ ih =>
    obtain ⟨q', hq', hval⟩ := ih (fun d hd => hop d (List.mem_cons_of_mem _ hd))
    obtain ⟨op, t⟩ := c
    have heq : op = "OR" := hop (ComplexQuery.mk op t) (List.mem_cons_self _ _)
    simp only [ComplexQuery.term] at hc
    have hstep : queryLoop lib (ComplexQuery.mk op t :: cs) q0
        = some (fun e => if op = "OR" then q' e || f e else q' e && f e) := by
      simp only [queryLoop, hq', newComplexQuery_some lib op t q' f hc]
    refine ⟨_, hstep, ?_⟩
    intro e
    simp only [heq, if_true, hval, List.any_cons]
    cases q0 e <;> cases f e <;> simp

theorem newComplexExpr_some (lib : GoLib) (free : Bool) (op : String) (x : Expr)
    (lhs rhs : exprFunc) (hx : newExpr lib free x = some rhs) :
    newComplexExpr lib free (ComplexExpr.mk op x) lhs
      = if op = "AND" then some (fun v => lhs v && rhs v)
        else if op = "OR" then some (fun v => lhs v || rhs v) else none := by
  simp [newComplexExpr, hx]

theorem subExprLoop_and (lib : GoLib) (free : Bool) (g0 : exprFunc) (rest : List ComplexExpr)
    (gs : List exprFunc)
    (hrest : List.Forall₂ (fun c g => newExpr lib free c.expr = some g) rest gs)
    (hop : ∀ c ∈ rest, c.operator = "AND") :
    ∃ f, subExprLoop lib free rest g0 = some f ∧
      ∀ v, f v = (g0 v && gs.all (fun g => g v)) := by
  induction hrest with
  | nil => exact ⟨g0, rfl, fun v => by simp⟩
  | @cons c g cs gs' hc _ ih =>
    obtain ⟨f', hf', hval⟩ := ih (fun d hd => hop d (List.mem_cons_of_mem _ hd))
    obtain ⟨op, x⟩ := c
    have heq : op = "AND" := hop (ComplexExpr.mk op x) (List.mem_cons_self _ _)
    simp only [ComplexExpr.expr] at hc
    subst heq
    have hstep : subExprLoop lib free (ComplexExpr.mk "AND" x :: cs) g0
        = some (fun v => f' v && g v) := by
      simp only [subExprLoop, hf', newComplexExpr_some lib free _ x f' g hc, if_true]
    refine ⟨_, hstep, ?_⟩
    intro v
    simp only [hval, List.all_cons]
    cases g0 v <;> cases g v <;> simp

theorem subExprLoop_or (lib : GoLib) (free : Bool) (g0 : exprFunc) (rest : List ComplexExpr)
    (gs : List exprFunc)
    (hrest : List.Forall₂ (fun c g => newExpr lib free c.expr = some g) rest gs)
    (hop : ∀ c ∈ rest, c.operator = "OR") :
    ∃ f, subExprLoop lib free rest g0 = some f ∧
      ∀ v, f v = (g0 v || gs.any (fun g => g v)) := by
  induction hrest with
  | nil => exact ⟨g0, rfl, fun v => by simp⟩
  | @cons c g cs gs' hc _ ih =>
    obtain ⟨f', hf', hval⟩ := ih (fun d hd => hop d (List.mem_cons_of_mem _ hd))
    obtain ⟨op, x⟩ := c
    have heq : op = "OR" := hop (ComplexExpr.mk op x) (List.mem_cons_self _ _)
    simp only [ComplexExpr.expr] at hc
    subst heq
    have hstep : subExprLoop lib free (ComplexExpr.mk "OR" x :: cs) g0
        = some (fun v => f' v || g v) := by
      simp only [subExprLoop, hf', newComplexExpr_some lib free _ x f' g hc,
        String.reduceEq, if_false, if_true]
    refine ⟨_, hstep, ?_⟩
    intro v
    simp only [hval, List.any_cons]
    cases g0 v <;> cases g v <;> simp

/-- C19: when the terms `T0..Tn` of a query compile to `f0..fn`, the query
compiles; if every operator is `AND` or omitted its predicate is true on an
event exactly when every `fi` is, and if every operator is `OR` exactly when
some `fi` is.  Likewise for the expressions of a sub-expression compiled by
`newSubExpr`, with every operator `AND`, respectively `OR`, over a value. -/
theorem homogeneous_chains (lib : GoLib) :
    (∀ (t0 : Term) (rest : List ComplexQuery) (f0 : queryFunc) (fs : List queryFunc),
      newTerm lib t0 = some f0 →
      List.Forall₂ (fun c f => newTerm lib c.term = some f) rest fs →
        ((∀ c ∈ rest, c.operator = "AND" ∨ c.operator = "") →
          ∃ q, newQuery lib (Query.mk t0 rest) = some q ∧
            ∀ e, q e = true ↔ ∀ f ∈ f0 :: fs, f e = true) ∧
        ((∀ c ∈ rest, c.operator = "OR") →
          ∃ q, newQuery lib (Query.mk t0 rest) = some q ∧
            ∀ e, q e = true ↔ ∃ f ∈ f0 :: fs, f e = true)) ∧
    (∀ (free : Bool) (x0 : Expr) (rest : List ComplexExpr) (g0 : exprFunc)
        (gs : List exprFunc),
      newExpr lib free x0 = some g0 →
      List.Forall₂ (fun c g => newExpr lib free c.expr = some g) rest gs →
        ((∀ c ∈ rest, c.operator = "AND") →
          ∃ f, newSubExpr lib free (SubExpr.mk x0 rest) = some f ∧
            ∀ v, f v = true ↔ ∀ g ∈ g0 :: gs, g v = true) ∧
        ((∀ c ∈ rest, c.operator = "OR") →
          ∃ f, newSubExpr lib free (SubExpr.mk x0 rest) = some f ∧
            ∀ v, f v = true ↔ ∃ g ∈ g0 :: gs, g v = true)) := by
  refine ⟨?_, ?_⟩
  · intro t0 rest f0 fs h0 hrest
    refine ⟨?_, ?_⟩
    · intro hop
      have hne : ∀ c ∈ rest, c.operator ≠ "OR" := by
        intro c hc
        rcases hop c hc with h | h <;> rw [h] <;> decide
      obtain ⟨q, hq, hval⟩ := queryLoop_and lib f0 rest fs hrest hne
      refine ⟨q, by simp only [newQuery, h0, hq], ?_⟩
      intro e
      simp [hval]
    · intro hop
      obtain ⟨q, hq, hval⟩ := queryLoop_or lib f0 rest fs hrest hop
      refine ⟨q, by simp only [newQuery, h0, hq], ?_⟩
      intro e
      simp [hval]
  · intro free x0 rest g0 gs h0 hrest
    refine ⟨?_, ?_⟩
    · intro hop
      obtain ⟨f, hf, hval⟩ := subExprLoop_and lib free g0 rest gs hrest hop
      refine ⟨f, by simp only [newSubExpr, h0, hf], ?_⟩
      intro v
      simp [hval]
    · intro hop
      obtain ⟨f, hf, hval⟩ := subExprLoop_or lib free g0 rest gs hrest hop
      refine ⟨f, by simp only [newSubExpr, h0, hf], ?_⟩
      intro v
      simp [hval]

/-- C19 (witness): the chain `a AND b` of two free-text conditions and the
sub-expression `(a OR b)`. -/
theorem homogeneous_chains_witness :
    ∃ f0 f1 g0 g1,
      newTerm asciiLib (freeTerm false (identExpr "a")) = some f0 ∧
      newTerm asciiLib (freeTerm false (identExpr "b")) = some f1 ∧
      newExpr asciiLib false (identExpr "a") = some g0 ∧
      newExpr asciiLib false (identExpr "b") = some g1 ∧
      (∃ q, newQuery asciiLib (Query.mk (freeTerm false (identExpr "a"))
          [ComplexQuery.mk "AND" (freeTerm false (identExpr "b"))]) = some q ∧
        ∀ e, q e = true ↔ ∀ f ∈ [f0, f1], f e = true) ∧
      (∃ f, newSubExpr asciiLib false (SubExpr.mk (identExpr "a")
          [ComplexExpr.mk "OR" (identExpr "b")]) = some f ∧
        ∀ v, f v = true ↔ ∃ g ∈ [g0, g1], g v = true) :=
  ⟨_, _, _, _, rfl, rfl, rfl, rfl,
    ((homogeneous_chains asciiLib).1 (freeTerm false (identExpr "a"))
      [ComplexQuery.mk "AND" (freeTerm false (identExpr "b"))] _ [_] rfl
      (List.Forall₂.cons rfl List.Forall₂.nil)).1 (by simp [ComplexQuery.operator]),
    ((homogeneous_chains asciiLib).2 false (identExpr "a")
      [ComplexExpr.mk "OR" (identExpr "b")] _ [_] rfl
      (List.Forall₂.cons rfl List.Forall₂.nil)).2 (by simp [ComplexExpr.operator])⟩

theorem wrapInt64_id (x : Int) (h1 : -2 ^ 63 ≤ x) (h2 : x < 2 ^ 63) : wrapInt64 x = x := by
  unfold wrapInt64
  norm_num at h1 h2 ⊢
  omega

theorem wrapInt64_max : wrapInt64 (2 ^ 63 - 1 + 1) = -2 ^ 63 := by
  unfold wrapInt64
  norm_num

theorem update_filter (m : monitor) (e : LogEntry) : (m.Update e).filter = m.filter := by
  unfold monitor.Update
  split <;> rfl

theorem update_counter (m : monitor) (e : LogEntry) (h1 : -2 ^ 63 ≤ m.counter)
    (h2 : m.counter < 2 ^ 63 - 1) :
    (m.Update e).counter = m.counter + (if m.filter e = true then 1 else 0) := by
  unfold monitor.Update
  split
  · simp only [if_true]
    exact wrapInt64_id _ (by omega) (by omega)
  · simp

theorem updateAll_filter (m : monitor) (events : List LogEntry) :
    (updateAll m events).filter = m.filter := by
  induction events generalizing m with
  | nil => rfl
  | cons e es ih =>
    simp only [updateAll, List.foldl_cons] at ih ⊢
    rw [ih, update_filter]

theorem updateAll_counter (m : monitor) (events : List LogEntry) (h0 : 0 ≤ m.counter)
    (h : m.counter + ((events.filter m.filter).length : Int) < 2 ^ 63) :
    (updateAll m events).counter = m.counter + ((events.filter m.filter).length : Int) := by
  induction events generalizing m with
  | nil => simp [updateAll]
  | cons e es ih =>
    simp only [updateAll, List.foldl_cons] at ih ⊢
    have hf : (m.Update e).filter = m.filter := update_filter m e
    by_cases he : m.filter e = true
    · simp only [List.filter_cons, he, if_true, List.length_cons, Nat.cast_add, Nat.cast_one] at h
      have hc : (m.Update e).counter = m.counter + 1 := by
        rw [update_counter m e (by omega) (by omega)]
        simp [he]
      rw [ih (m.Update e) (by omega) (by rw [hf, hc]; omega), hf, hc]
      simp only [List.filter_cons, he, if_true, List.length_cons, Nat.cast_add, Nat.cast_one]
      omega
    · simp only [List.filter_cons, he, if_false, Bool.false_eq_true] at h
      have hc : (m.Update e).counter = m.counter := by
        simp [monitor.Update, he]
      rw [ih (m.Update e) (by omega) (by rw [hf, hc]; exact h), hf, hc]
      simp only [List.filter_cons, he, if_false, Bool.false_eq_true]

theorem updateAll_append (m : monitor) (xs ys : List LogEntry) :
    updateAll m (xs ++ ys) = updateAll (updateAll m xs) ys := by
  simp [updateAll, List.foldl_append]

theorem updateAll_replicate (m : monitor) (e : LogEntry) (n : Nat) (he : m.filter e = true)
    (h0 : 0 ≤ m.counter) (hn : m.counter + (n : Int) < 2 ^ 63) :
    (updateAll m (List.replicate n e)).counter = m.counter + (n : Int) := by
  have hfl : ((List.replicate n e).filter m.filter).length = n := by
    rw [List.filter_replicate_of_pos he, List.length_replicate]
  have := updateAll_counter m (List.replicate n e) h0 (by rw [hfl]; exact hn)
  rw [this, hfl]

theorem update_counter_true (m : monitor) (e : LogEntry) (he : m.filter e = true) :
    (m.Update e).counter = wrapInt64 (m.counter + 1) := by
  simp [monitor.Update, he]

theorem updateAll_single (m : monitor) (e : LogEntry) : updateAll m [e] = m.Update e := rfl

theorem scenario_filter :
    ∃ q, newQuery asciiLib scenarioQuery = some q ∧ q scenarioEvent = true :=
  ⟨_, rfl, by decide⟩

/-- C15 (counterexample): on the fresh monitor of the scenario query, after
`2 ^ 63` updates with the matching event of the test the counter is `-2 ^ 63`,
not the number of matching events, and it is smaller than it was after
`2 ^ 63 - 1` of them. -/
theorem counter_wraps_around :
    ∃ m, newMonitor asciiLib scenarioQuery = some m ∧ m.counter = 0 ∧
      (updateAll m (List.replicate (2 ^ 63 - 1) scenarioEvent)).counter = 2 ^ 63 - 1 ∧
      (updateAll m (List.replicate (2 ^ 63 - 1) scenarioEvent ++ [scenarioEvent])).counter
        = -2 ^ 63 := by
  obtain ⟨q, hq, hev⟩ := scenario_filter
  refine ⟨monitor.mk q 0, by simp [newMonitor, hq], rfl, ?_, ?_⟩
  · have := updateAll_replicate (monitor.mk q 0) scenarioEvent (2 ^ 63 - 1) hev (le_refl _)
      (by norm_num)
    rw [this]
    norm_num
  · have h1 := updateAll_replicate (monitor.mk q 0) scenarioEvent (2 ^ 63 - 1) hev (le_refl _)
      (by norm_num)
    have hf := updateAll_filter (monitor.mk q 0) (List.replicate (2 ^ 63 - 1) scenarioEvent)
    rw [updateAll_append, updateAll_single,
      update_counter_true _ scenarioEvent (by rw [hf]; exact hev), h1]
    unfold wrapInt64
    norm_num

/-- C15 (amended): `Update` never changes the predicate, leaves the counter
unchanged when the predicate is false on the event, and increases it by exactly
1 when the predicate is true and the counter is an `int64` below `2 ^ 63 - 1`;
hence for a sequence of events with fewer than `2 ^ 63` satisfying events,
passed one by one to `Update` on a freshly constructed monitor (counter 0), the
final counter is the number of satisfying events, and the counter never
decreases along the sequence. -/
theorem monitor_counts (lib : GoLib) (ast : Query) (m : monitor) (events : List LogEntry)
    (hm : newMonitor lib ast = some m)
    (hlen : (events.filter m.filter).length < 2 ^ 63) :
    m.counter = 0 ∧
    (∀ (m' : monitor) (e : LogEntry),
      (m'.Update e).filter = m'.filter ∧
      (m'.filter e = false → (m'.Update e).counter = m'.counter) ∧
      (m'.filter e = true → -2 ^ 63 ≤ m'.counter → m'.counter < 2 ^ 63 - 1 →
        (m'.Update e).counter = m'.counter + 1)) ∧
    (updateAll m events).filter = m.filter ∧
    (updateAll m events).counter = ((events.filter m.filter).length : Int) ∧
    (∀ pre mid suf, events = pre ++ mid ++ suf →
      (updateAll m pre).counter ≤ (updateAll m (pre ++ mid)).counter) := by
  have h0 : m.counter = 0 := by
    simp only [newMonitor] at hm
    cases hq : newQuery lib ast with
    | none => simp [hq] at hm
    | some q =>
      simp only [hq, Option.map_some', Option.some.injEq] at hm
      subst hm
      rfl
  have hlen' : ((events.filter m.filter).length : Int) < 2 ^ 63 := by exact_mod_cast hlen
  refine ⟨h0, ?_, updateAll_filter m events, ?_, ?_⟩
  · intro m' e
    refine ⟨update_filter m' e, ?_, ?_⟩
    · intro he
      simp [monitor.Update, he]
    · intro he h1 h2
      rw [update_counter m' e h1 h2]
      simp [he]
  · rw [updateAll_counter m events (by omega) (by omega), h0]
    simp
  · intro pre mid suf hsplit
    have hpm : ((pre ++ mid).filter m.filter).length ≤ (events.filter m.filter).length := by
      rw [hsplit, List.filter_append _ suf, List.length_append]
      omega
    have hp : (pre.filter m.filter).length ≤ ((pre ++ mid).filter m.filter).length := by
      rw [List.filter_append, List.length_append]
      omega
    rw [updateAll_counter m pre (by omega) (by omega),
      updateAll_counter m (pre ++ mid) (by omega) (by omega)]
    omega

/-- C15 (witness): the scenario monitor and the two events of the scenario. -/
theorem monitor_counts_witness :
    ∃ m, newMonitor asciiLib scenarioQuery = some m ∧
      ([scenarioEvent, scenarioEventNoEnv].filter m.filter).length < 2 ^ 63 ∧
      (updateAll m [scenarioEvent, scenarioEventNoEnv]).counter
        = (([scenarioEvent, scenarioEventNoEnv].filter m.filter).length : Int) :=
  ⟨_, rfl, by decide,
    (monitor_counts asciiLib scenarioQuery _ [scenarioEvent, scenarioEventNoEnv] rfl
      (by decide)).2.2.2.1⟩

theorem identChar_of_isAlpha (c : Char) (h : c.isAlpha = true) : identChar c = true := by
  simp [identChar, Char.isAlphanum, h]

theorem takeWhile_ident_letters (f rest : List Char) (hf : ∀ c ∈ f, c.isAlpha = true) :
    (f ++ ':' :: rest).takeWhile identChar = f := by
  induction f with
  | nil =>
    have : identChar ':' = false := by decide
    simp [List.takeWhile, this]
  | cons c cs ih =>
    have hc : identChar c = true := identChar_of_isAlpha c (hf c (List.mem_cons_self _ _))
    simp only [List.cons_append, List.takeWhile, hc]
    exact congrArg (fun l => c :: l) (ih (fun d hd => hf d (List.mem_cons_of_mem _ hd)))

/-- The first token of `-f:...`, for a name `f` of letters, is the identifier
`-f`. -/
theorem nextToken_dash_name (f rest : List Char) (hf : ∀ c ∈ f, c.isAlpha = true) :
    nextToken [LexState.Root] ('-' :: (f ++ ':' :: rest))
      = some (⟨TokenType.Ident, ⟨'-' :: f⟩⟩, [LexState.Root], ':' :: rest) := by
  have htw : ('-' :: (f ++ ':' :: rest)).takeWhile identChar = '-' :: f := by
    have : identChar '-' = true := by decide
    simp only [List.takeWhile, this]
    rw [takeWhile_ident_letters f rest hf]
  have hlen : ('-' :: f).length = f.length + 1 := rfl
  simp only [nextToken, List.headD, lexRules, firstMatch, Pattern.matchLen, htw]
  simp [List.isPrefixOf, applyAction, List.take_append_eq_append_take, List.drop_append_eq_append_drop]

/-- C16: the tokens of `-env:production` are the identifier `-env`, `:` and the
identifier `production`, and the only token of `-foo` is the identifier
`-foo`: no token `-` is produced, while in `-(a)` the `-` is a token of its
own; and for every name `f` of letters the first token of `-f:v` is the
identifier `-f`. -/
theorem leading_dash_joins_ident :
    parserTokens "-env:production"
      = some [⟨TokenType.Ident, "-env"⟩, ⟨TokenType.Punct, ":"⟩,
          ⟨TokenType.Ident, "production"⟩] ∧
    parserTokens "-foo" = some [⟨TokenType.Ident, "-foo"⟩] ∧
    parserTokens "-(a)"
      = some [⟨TokenType.Ident, "-"⟩, ⟨TokenType.Punct, "("⟩, ⟨TokenType.Ident, "a"⟩,
          ⟨TokenType.Punct, ")"⟩] ∧
    (∀ f v : String, (∀ c ∈ f.data, c.isAlpha = true) →
      nextToken [LexState.Root] ("-" ++ f ++ ":" ++ v).data
        = some (⟨TokenType.Ident, "-" ++ f⟩, [LexState.Root], (":" ++ v).data)) := by
  refine ⟨by decide, by decide, by decide, ?_⟩
  intro f v hf
  have hd : ("-" ++ f ++ ":" ++ v).data = '-' :: (f.data ++ ':' :: v.data) := by
    simp [String.data_append]
  rw [hd, nextToken_dash_name f.data v.data hf]
  rfl

/-- C16 (witness): the first token of `-env:production`. -/
theorem leading_dash_joins_ident_witness :
    (∀ c ∈ "env".data, c.isAlpha = true) ∧
      nextToken [LexState.Root] ("-" ++ "env" ++ ":" ++ "production").data
        = some (⟨TokenType.Ident, "-" ++ "env"⟩, [LexState.Root], (":" ++ "production").data) :=
  ⟨by decide, leading_dash_joins_ident.2.2.2 "env" "production" (by decide)⟩

/-- C17: the word `or` of `a or b`, and likewise `Or` and `and`, is delivered
to the parser as an `Ident` token with its text unchanged; only the upper-case
`OR` of `a OR b` is a `BooleanOperator` token. -/
theorem lower_case_operator_is_ident :
    parserTokens "a or b"
      = some [⟨TokenType.Ident, "a"⟩, ⟨TokenType.Ident, "or"⟩, ⟨TokenType.Ident, "b"⟩] ∧
    parserTokens "a Or b"
      = some [⟨TokenType.Ident, "a"⟩, ⟨TokenType.Ident, "Or"⟩, ⟨TokenType.Ident, "b"⟩] ∧
    parserTokens "a and b"
      = some [⟨TokenType.Ident, "a"⟩, ⟨TokenType.Ident, "and"⟩, ⟨TokenType.Ident, "b"⟩] ∧
    parserTokens "a OR b"
      = some [⟨TokenType.Ident, "a"⟩, ⟨TokenType.BooleanOperator, "OR"⟩,
          ⟨TokenType.Ident, "b"⟩] :=
  ⟨by decide, by decide, by decide, by decide⟩

/-- C20: in the state `Root` the first token of every input that begins with
`AND`, respectively `OR`, is the `BooleanOperator` token `AND`, respectively
`OR`, whatever follows, and the rest of the input is lexed on from there:
`ORDER` gives `OR` and the identifier `DER`, `ANDROID` gives `AND` and the
identifier `ROID`; the lower-case `order` is one identifier. -/
theorem boolean_operator_wins (stack : List LexState) (rest : String) :
    nextToken (LexState.Root :: stack) ("AND" ++ rest).data
      = some (⟨TokenType.BooleanOperator, "AND"⟩, LexState.Root :: stack, rest.data) ∧
    nextToken (LexState.Root :: stack) ("OR" ++ rest).data
      = some (⟨TokenType.BooleanOperator, "OR"⟩, LexState.Root :: stack, rest.data) ∧
    lexTokens "ORDER"
      = some [⟨TokenType.BooleanOperator, "OR"⟩, ⟨TokenType.Ident, "DER"⟩] ∧
    lexTokens "ANDROID"
      = some [⟨TokenType.BooleanOperator, "AND"⟩, ⟨TokenType.Ident, "ROID"⟩] ∧
    lexTokens "order" = some [⟨TokenType.Ident, "order"⟩] := by
  refine ⟨?_, ?_, by decide, by decide, by decide⟩
  · have hd : ("AND" ++ rest).data = 'A' :: 'N' :: 'D' :: rest.data := by
      simp [String.data_append]
    rw [hd]
    simp [nextToken, lexRules, firstMatch, Pattern.matchLen, List.isPrefixOf, applyAction]
    exact ⟨rfl, rfl⟩
  · have hd : ("OR" ++ rest).data = 'O' :: 'R' :: rest.data := by
      simp [String.data_append]
    rw [hd]
    simp [nextToken, lexRules, firstMatch, Pattern.matchLen, List.isPrefixOf, applyAction]
    exact ⟨rfl, rfl⟩

theorem newStringExpr_isSome (lib : GoLib) (rhs : String) (free : Bool) :
    (newStringExpr lib rhs free).isSome = true := by
  by_cases hc : (free || stringsContains rhs '*') = true
  · rw [newStringExpr_regex lib rhs free hc]
    rfl
  · have hfree : free = false := by
      cases free
      · rfl
      · simp at hc
    subst hfree
    rw [newStringExpr_exact lib rhs (by simpa using hc)]
    rfl

theorem newStringLitExpr_isSome (lib : GoLib) (rhs : String) (free : Bool) :
    (newStringLitExpr lib rhs free).isSome = true := by
  cases free with
  | true => simpa [newStringLitExpr] using newStringExpr_isSome lib _ true
  | false => simp [newStringLitExpr]

theorem newValueExpr_isSome (lib : GoLib) (v : Value) (free : Bool)
    (h : v.populated = true) : (newValueExpr lib v free).isSome = true := by
  obtain ⟨lit, s, o, c⟩ := v
  by_cases hl : lit.isEmpty = true
  · simp only [Value.populated, hl, Bool.not_true, Bool.false_or, Bool.or_eq_true] at h
    simp only [newValueExpr, hl, Bool.not_true, Bool.false_eq_true, if_false]
    cases s with
    | some s => exact newStringExpr_isSome lib s free
    | none =>
      cases o with
      | some o => rfl
      | none =>
        cases c with
        | some c => rfl
        | none => simp at h
  · simp only [newValueExpr, hl, Bool.not_false, if_true]
    exact newStringLitExpr_isSome lib _ free

mutual
theorem newExpr_isSome (lib : GoLib) (free : Bool) :
    ∀ x : Expr, x.wellFormed = true → (newExpr lib free x).isSome = true
  | Expr.mk (some v) _, h => by
    simp only [Expr.wellFormed] at h
    simpa [newExpr] using newValueExpr_isSome lib v free h
  | Expr.mk none (some s), h => by
    simp only [Expr.wellFormed] at h
    simpa [newExpr] using newSubExpr_isSome lib free s h
  | Expr.mk none none, h => by simp [Expr.wellFormed] at h
theorem newSubExpr_isSome (lib : GoLib) (free : Bool) :
    ∀ s : SubExpr, s.wellFormed = true → (newSubExpr lib free s).isSome = true
  | SubExpr.mk first rest, h => by
    simp only [SubExpr.wellFormed, Bool.and_eq_true] at h
    have h1 := newExpr_isSome lib free first h.1
    obtain ⟨e, he⟩ := Option.isSome_iff_exists.1 h1
    simp only [newSubExpr, he]
    exact subExprLoop_isSome lib free rest e h.2
theorem subExprLoop_isSome (lib : GoLib) (free : Bool) :
    ∀ (rest : List ComplexExpr) (e : exprFunc), ComplexExpr.allWellFormed rest = true →
      (subExprLoop lib free rest e).isSome = true
  | [], _, _ => rfl
  | ComplexExpr.mk op x :: cs, e, h => by
    simp only [ComplexExpr.allWellFormed, ComplexExpr.wellFormed, Bool.and_eq_true,
      Bool.or_eq_true, decide_eq_true_eq] at h
    obtain ⟨e', he'⟩ := Option.isSome_iff_exists.1 (subExprLoop_isSome lib free cs e h.2)
    obtain ⟨rhs, hrhs⟩ := Option.isSome_iff_exists.1 (newExpr_isSome lib free x h.1.2)
    simp only [subExprLoop, he', newComplexExpr_some lib free op x e' rhs hrhs]
    rcases h.1.1 with hop | hop <;> subst hop <;> simp
end

theorem newCondition_isSome (lib : GoLib) (c : Condition) (h : c.Value.wellFormed = true) :
    (newCondition lib c).isSome = true := by
  obtain ⟨rhs, hrhs⟩ := Option.isSome_iff_exists.1 (newExpr_isSome lib false c.Value h)
  simp only [newCondition, hrhs]
  split <;> rfl

theorem newFreeCondition_isSome (lib : GoLib) (c : FreeCondition)
    (h : c.Value.wellFormed = true) : (newFreeCondition lib c).isSome = true := by
  obtain ⟨rhs, hrhs⟩ := Option.isSome_iff_exists.1 (newExpr_isSome lib true c.Value h)
  simp only [newFreeCondition, hrhs]
  split <;> rfl

theorem newTerm_condition (lib : GoLib) (s : Option SubQuery) (c : Condition)
    (f : Option FreeCondition) : newTerm lib (Term.mk s (some c) f) = newCondition lib c := by
  cases s <;> cases f <;> rfl

theorem newTerm_freeCondition (lib : GoLib) (s : Option SubQuery) (f : FreeCondition) :
    newTerm lib (Term.mk s none (some f)) = newFreeCondition lib f := by
  cases s <;> rfl

theorem newTerm_subQuery (lib : GoLib) (s : SubQuery) :
    newTerm lib (Term.mk (some s) none none) = newSubQuery lib s := rfl

theorem newTerm_invalid (lib : GoLib) : newTerm lib (Term.mk none none none) = none := rfl

theorem wellFormed_condition (s : Option SubQuery) (c : Condition) (f : Option FreeCondition) :
    (Term.mk s (some c) f).wellFormed = c.Value.wellFormed := by
  cases s <;> cases f <;> rfl

theorem wellFormed_freeCondition (s : Option SubQuery) (f : FreeCondition) :
    (Term.mk s none (some f)).wellFormed = f.Value.wellFormed := by
  cases s <;> rfl

theorem wellFormed_subQuery (s : SubQuery) :
    (Term.mk (some s) none none).wellFormed = s.wellFormed := rfl

mutual
/-- Compilation returns a predicate for every well-formed tree. -/
theorem newQuery_isSome (lib : GoLib) :
    ∀ q : Query, q.wellFormed = true → (newQuery lib q).isSome = true
  | Query.mk first rest, h => by
    simp only [Query.wellFormed, Bool.and_eq_true] at h
    obtain ⟨f, hf⟩ := Option.isSome_iff_exists.1 (newTerm_isSome lib first h.1)
    simp only [newQuery, hf]
    exact queryLoop_isSome lib rest f h.2
theorem queryLoop_isSome (lib : GoLib) :
    ∀ (rest : List ComplexQuery) (q : queryFunc), ComplexQuery.allWellFormed rest = true →
      (queryLoop lib rest q).isSome = true
  | [], _, _ => rfl
  | ComplexQuery.mk op t :: cs, q, h => by
    simp only [ComplexQuery.allWellFormed, ComplexQuery.wellFormed, Bool.and_eq_true] at h
    obtain ⟨q', hq'⟩ := Option.isSome_iff_exists.1 (queryLoop_isSome lib cs q h.2)
    obtain ⟨rhs, hrhs⟩ := Option.isSome_iff_exists.1 (newTerm_isSome lib t h.1)
    simp only [queryLoop, hq', newComplexQuery_some lib op t q' rhs hrhs]
    rfl
theorem newSubQuery_isSome (lib : GoLib) :
    ∀ s : SubQuery, s.wellFormed = true → (newSubQuery lib s).isSome = true
  | SubQuery.mk exclusion q, h => by
    simp only [SubQuery.wellFormed] at h
    obtain ⟨f, hf⟩ := Option.isSome_iff_exists.1 (newQuery_isSome lib q h)
    simp only [newSubQuery, hf]
    split <;> rfl
theorem newTerm_isSome (lib : GoLib) :
    ∀ t : Term, t.wellFormed = true → (newTerm lib t).isSome = true
  | Term.mk s (some c) f, h => by
    rw [wellFormed_condition] at h
    rw [newTerm_condition]
    exact newCondition_isSome lib c h
  | Term.mk s none (some f), h => by
    rw [wellFormed_freeCondition] at h
    rw [newTerm_freeCondition]
    exact newFreeCondition_isSome lib f h
  | Term.mk (some s) none none, h => by
    rw [wellFormed_subQuery] at h
    rw [newTerm_subQuery]
    exact newSubQuery_isSome lib s h
  | Term.mk none none none, h => by
    have hf : (Term.mk none none none).wellFormed = false := rfl
    rw [hf] at h
    cases h
end

/-- C18: the query texts `''` and `env:""` lex to an opening and a closing
quote with no fragment in between, and their trees, whose quoted literal has no
fragments, are not compiled: `newQuery` reaches `panic("invalid expr")`. -/
theorem empty_literal_panics (lib : GoLib) :
    parserTokens "\x27\x27"
      = some [⟨TokenType.SingleQuote, "\x27"⟩, ⟨TokenType.SingleQuote, "\x27"⟩] ∧
    parserTokens "env:\x22\x22"
      = some [⟨TokenType.Ident, "env"⟩, ⟨TokenType.Punct, ":"⟩,
          ⟨TokenType.DoubleQuote, "\x22"⟩, ⟨TokenType.DoubleQuote, "\x22"⟩] ∧
    newQuery lib emptyLiteralQuery = none ∧ newQuery lib emptyLiteralFieldQuery = none :=
  ⟨by decide, by decide, rfl, rfl⟩

theorem matchLen_pos (p : Pattern) (input : List Char) (n : Nat) (hp : p.positive = true)
    (h : p.matchLen input = some n) : 0 < n := by
  induction p generalizing n with
  | lits alts =>
    simp only [Pattern.matchLen, Option.map_eq_some'] at h
    obtain ⟨a, ha, rfl⟩ := h
    have hmem := List.mem_of_find?_eq_some ha
    simp only [Pattern.positive, List.all_eq_true] at hp
    have := hp a hmem
    cases hd : a.data with
    | nil => simp [hd] at this
    | cons c cs => simp
  | run cls =>
    simp only [Pattern.matchLen] at h
    split at h
    · cases h
    · rename_i hne
      cases htw : List.takeWhile cls input with
      | nil => simp [htw] at hne
      | cons c cs =>
        simp only [htw, Option.some.injEq] at h
        subst h
        simp
  | one cls =>
    cases input with
    | nil => simp [Pattern.matchLen] at h
    | cons c cs =>
      simp only [Pattern.matchLen] at h
      split at h
      · cases h
        exact Nat.one_pos
      · cases h
  | escaped =>
    match input, h with
    | [], h => simp [Pattern.matchLen] at h
    | [_], h => simp [Pattern.matchLen] at h
    | c :: d :: r, h =>
      simp only [Pattern.matchLen] at h
      split at h
      · cases h
        exact Nat.succ_pos 1
      · cases h
  | orElse p q ihp ihq =>
    simp only [Pattern.positive, Bool.and_eq_true] at hp
    simp only [Pattern.matchLen] at h
    cases hpm : p.matchLen input with
    | some m =>
      simp only [hpm, Option.some.injEq] at h
      subst h
      exact ihp m hp.1 hpm
    | none =>
      simp only [hpm] at h
      exact ihq n hp.2 h

theorem firstMatch_pos (rules : List Rule) (input : List Char) (r : Rule) (n : Nat)
    (hrules : ∀ x ∈ rules, x.Pattern.positive = true)
    (h : firstMatch rules input = some (r, n)) : 0 < n := by
  induction rules with
  | nil => simp [firstMatch] at h
  | cons x xs ih =>
    simp only [firstMatch] at h
    cases hx : x.Pattern.matchLen input with
    | some m =>
      simp only [hx, Option.some.injEq, Prod.mk.injEq] at h
      obtain ⟨_, rfl⟩ := h
      exact matchLen_pos _ input m (hrules x (List.mem_cons_self _ _)) hx
    | none =>
      simp only [hx] at h
      exact ih (fun y hy => hrules y (List.mem_cons_of_mem _ hy)) h

theorem lexRules_positive (st : LexState) : ∀ x ∈ lexRules st, x.Pattern.positive = true := by
  cases st <;> decide

/-- Every call of the lexer consumes at least one character. -/
theorem nextToken_consumes (stack : List LexState) (input : List Char) (tok : Token)
    (stack' : List LexState) (rest : List Char) (hne : input ≠ [])
    (h : nextToken stack input = some (tok, stack', rest)) : rest.length < input.length := by
  unfold nextToken at h
  split at h
  · cases h
  · rename_i r n hfm
    simp only [Option.some.injEq, Prod.mk.injEq] at h
    obtain ⟨_, _, rfl⟩ := h
    have hn := firstMatch_pos _ input r n (lexRules_positive _) hfm
    have hlen : 0 < input.length := List.length_pos.2 hne
    simp only [List.length_drop]
    omega

/-- More calls than the length of the input change nothing: with at least that
many the lexer stops only at the end of the input or at a lexical error. -/
theorem lexLoop_fuel (fuel fuel' : Nat) (stack : List LexState) (input : List Char)
    (h : input.length ≤ fuel) (h' : input.length ≤ fuel') :
    lexLoop fuel stack input = lexLoop fuel' stack input := by
  induction fuel generalizing fuel' stack input with
  | zero =>
    have : input = [] := List.length_eq_zero.1 (Nat.le_zero.1 h)
    subst this
    cases fuel' <;> rfl
  | succ k ih =>
    cases input with
    | nil => cases fuel' <;> rfl
    | cons c cs =>
      cases fuel' with
      | zero => simp at h'
      | succ k' =>
        simp only [lexLoop]
        cases hnt : nextToken stack (c :: cs) with
        | none => rfl
        | some res =>
          obtain ⟨tok, stack', rest⟩ := res
          have hlt := nextToken_consumes stack (c :: cs) tok stack' rest (by simp) hnt
          simp only [List.length_cons] at h h' hlt
          simp only []
          rw [ih k' stack' rest (by omega) (by omega)]

set_option maxRecDepth 100000 in
/-- The tokens of the scenario query text: the same sequence of conditions as
the tree `scenarioQuery`. -/
theorem scenario_query_tokens :
    parserTokens ("service:(linode-livekit-cloud-media-production-v1 OR "
        ++ "livekit-cloud-media-production-v1 OR cloud-media) env:production "
        ++ "\x27no stream matches subject\x27")
      = some [⟨TokenType.Ident, "service"⟩, ⟨TokenType.Punct, ":"⟩, ⟨TokenType.Punct, "("⟩,
          ⟨TokenType.Ident, "linode-livekit-cloud-media-production-v1"⟩,
          ⟨TokenType.BooleanOperator, "OR"⟩,
          ⟨TokenType.Ident, "livekit-cloud-media-production-v1"⟩,
          ⟨TokenType.BooleanOperator, "OR"⟩,
          ⟨TokenType.Ident, "cloud-media"⟩, ⟨TokenType.Punct, ")"⟩,
          ⟨TokenType.Ident, "env"⟩, ⟨TokenType.Punct, ":"⟩, ⟨TokenType.Ident, "production"⟩,
          ⟨TokenType.SingleQuote, "\x27"⟩,
          ⟨TokenType.SingleQuoteStringChar, "no stream matches subject"⟩,
          ⟨TokenType.SingleQuote, "\x27"⟩] := by
  decide

/-- The tokens of the example query text of the interface description: its
third condition begins with the identifier `-message`. -/
theorem example_query_tokens :
    parserTokens ("service:(a OR b) env:production "
        ++ "-message:\x22no stream matches subject\x22")
      = some [⟨TokenType.Ident, "service"⟩, ⟨TokenType.Punct, ":"⟩, ⟨TokenType.Punct, "("⟩,
          ⟨TokenType.Ident, "a"⟩, ⟨TokenType.BooleanOperator, "OR"⟩, ⟨TokenType.Ident, "b"⟩,
          ⟨TokenType.Punct, ")"⟩,
          ⟨TokenType.Ident, "env"⟩, ⟨TokenType.Punct, ":"⟩, ⟨TokenType.Ident, "production"⟩,
          ⟨TokenType.Ident, "-message"⟩, ⟨TokenType.Punct, ":"⟩,
          ⟨TokenType.DoubleQuote, "\x22"⟩,
          ⟨TokenType.DoubleQuoteStringChar, "no stream matches subject"⟩,
          ⟨TokenType.DoubleQuote, "\x22"⟩] := by
  decide

end Cloudmon
